import Mathlib

/-!
Verification development for the benchmark-plotting pipeline
(`src/json.rs`, `src/plot.rs`, `src/main.rs`).

The development shallowly embeds the two core components:

* the resilient JSON stream decoder (`ResilientStreamDeserializer` in
  `src/json.rs`), modelled as an explicit state machine over an abstract
  buffer of JSON values;
* the aggregator (`Plots::add_data`, `str_to_datetime`, the axis-range
  types and `MinMax::set_min_max` in `src/plot.rs`), with `f64` modelled
  as a rational-or-NaN type, `DateTime<Utc>` as epoch seconds (`Int`),
  `HashMap` as an association list, and chrono's `parse_from_rfc3339`
  as an abstract parsing parameter.
-/

namespace CIW

/-! ### Buffer model for the stream decoder

A buffer is a sequence of syntactically valid JSON values (each value
carries the byte length it occupies, including any leading whitespace,
and, when the bytes also decode into the typed record `T`, that record),
optionally followed by a corrupt tail of `tailLen > 0` bytes that is not
valid JSON.  `val : V` is the untyped `serde_json::Value` the bytes parse
to; `typed = some t` when the bytes additionally typed-decode to `t`. -/

structure Chunk (T V : Type) where
  val : V
  len : Nat
  typed : Option T
deriving DecidableEq

structure Buffer (T V : Type) where
  chunks : List (Chunk T V)
  tailLen : Nat
deriving DecidableEq

def lenSum {T V : Type} (cs : List (Chunk T V)) : Nat :=
  (cs.map (fun c => c.len)).sum

def Buffer.byteLen {T V : Type} (b : Buffer T V) : Nat :=
  lenSum b.chunks + b.tailLen

def Buffer.posLens {T V : Type} (b : Buffer T V) : Prop :=
  ∀ c ∈ b.chunks, 0 < c.len

instance {T V : Type} (b : Buffer T V) : Decidable b.posLens :=
  inferInstanceAs (Decidable (∀ c ∈ b.chunks, 0 < c.len))

/-- Model of `serde_json::StreamDeserializer` state: the unconsumed part
of its input together with `byte_offset()`, the number of input bytes the
successfully parsed values have consumed so far. -/
structure StreamSt (T V : Type) where
  rest : Buffer T V
  offset : Nat
deriving DecidableEq

def mkStream {T V : Type} (b : Buffer T V) : StreamSt T V := ⟨b, 0⟩

/-- `StreamDeserializer::<T>::next`: at a chunk that typed-decodes, yield it
and advance past its bytes; at a chunk that does not, yield a (type) error
without committing the offset; at the corrupt tail, yield a (syntax) error;
at the clean end, yield `none`. -/
def streamNextT {T V : Type} (s : StreamSt T V) :
    Option (Except Unit T) × StreamSt T V :=
  match s.rest.chunks with
  | [] => if s.rest.tailLen = 0 then (none, s) else (some (.error ()), s)
  | c :: cs =>
    match c.typed with
    | some t => (some (.ok t), ⟨⟨cs, s.rest.tailLen⟩, s.offset + c.len⟩)
    | none => (some (.error ()), s)

/-- `StreamDeserializer::<Value>::next`: every chunk is a syntactically
valid JSON value, so it always parses untyped; only the corrupt tail
yields an error. -/
def streamNextV {T V : Type} (s : StreamSt T V) :
    Option (Except Unit V) × StreamSt T V :=
  match s.rest.chunks with
  | [] => if s.rest.tailLen = 0 then (none, s) else (some (.error ()), s)
  | c :: cs => (some (.ok c.val), ⟨⟨cs, s.rest.tailLen⟩, s.offset + c.len⟩)

/-- Byte slicing (`&self.json[pos..]`) of the chunk-level buffer.  In every
reachable state the position is a chunk boundary (or the end of the whole
buffer), so dropping whole chunks while `pos` bytes remain is exact. -/
def dropChunks {T V : Type} : List (Chunk T V) → Nat → List (Chunk T V) × Nat
  | cs, 0 => (cs, 0)
  | [], n + 1 => ([], n + 1)
  | c :: cs, n + 1 =>
    if n + 1 < c.len then (c :: cs, n + 1) else dropChunks cs (n + 1 - c.len)

def Buffer.sliceFrom {T V : Type} (b : Buffer T V) (pos : Nat) : Buffer T V :=
  let r := dropChunks b.chunks pos
  ⟨r.1, b.tailLen - r.2⟩

/-- `JsonError` of `src/json.rs`: `value = some v` when the failing bytes
were still syntactically valid JSON (`v` the re-parsed `Value`). The
opaque `serde_json::Error` message is not modelled. -/
structure JsonError (V : Type) where
  value : Option V
deriving DecidableEq

/-- `ResilientStreamDeserializer`: the remaining input slice `json`, the
typed stream over it, and the last confirmed-good byte offset. -/
structure RSD (T V : Type) where
  json : Buffer T V
  stream : StreamSt T V
  last_ok_pos : Nat
deriving DecidableEq

def RSD.new {T V : Type} (json : Buffer T V) : RSD T V :=
  ⟨json, mkStream json, 0⟩

/-- Transcription of `ResilientStreamDeserializer::next` (src/json.rs,
lines 122-146). -/
def RSD.next {T V : Type} (s : RSD T V) :
    Option (Except (JsonError V) T × RSD T V) :=
  match streamNextT s.stream with
  | (none, _) => none
  | (some (.ok value), stream1) =>
      some (.ok value, { s with stream := stream1, last_ok_pos := stream1.offset })
  | (some (.error _), _) =>
      let err_json := s.json.sliceFrom s.last_ok_pos
      match streamNextV (mkStream err_json) with
      | (none, _) => none
      | (some r, err_stream1) =>
          let value := r.toOption
          let next_pos :=
            if value.isSome then s.last_ok_pos + err_stream1.offset
            else s.json.byteLen
          let json1 := s.json.sliceFrom next_pos
          some (.error ⟨value⟩, ⟨json1, mkStream json1, 0⟩)

/-- Pulling the lazy sequence up to `fuel` times. -/
def RSD.run {T V : Type} (s : RSD T V) : Nat → List (Except (JsonError V) T)
  | 0 => []
  | fuel + 1 =>
    match s.next with
    | none => []
    | some (r, s1) => r :: s1.run fuel

/-- Well-formedness of a decoder state: the typed stream's unconsumed input
is a suffix of `json`, its committed offset is the byte length of the
consumed prefix, and `last_ok_pos` coincides with that offset.  This holds
in the initial state and is preserved by every pull. -/
def RSD.WF {T V : Type} (s : RSD T V) : Prop :=
  ∃ pre : List (Chunk T V),
    s.json.chunks = pre ++ s.stream.rest.chunks ∧
    s.stream.rest.tailLen = s.json.tailLen ∧
    s.stream.offset = lenSum pre ∧
    s.last_ok_pos = s.stream.offset

/-- Unconsumed bytes: distance from the cursor to the end of the buffer. -/
def RSD.remaining {T V : Type} (s : RSD T V) : Nat :=
  s.json.byteLen - s.stream.offset

/-! ### Identity parser (`BenchId::deserialize`, src/json.rs lines 26-46)

Rust strings are modelled as `List Char` (the inputs are ASCII, so `char`
boundaries and byte positions coincide). -/

abbrev GKey := List Char

/-- Rust `str::split('/')`: an empty input gives one empty segment. -/
def splitChar (sep : Char) : List Char → List (List Char)
  | [] => [[]]
  | a :: rest =>
    match splitChar sep rest with
    | [] => [[]]
    | s :: ss => if a = sep then [] :: s :: ss else (a :: s) :: ss

/-- Rust `str::replace('_', ":")` on a single-character pattern. -/
def replaceUC (s : List Char) : List Char :=
  s.map (fun ch => if ch = '_' then ':' else ch)

structure BenchId where
  group_name : GKey
  bench_name : GKey
  params : GKey
deriving DecidableEq

/-- `BenchId::deserialize`: split on `/`, require exactly 3 segments, and
restore the producer's `_` back to `:` in the middle segment only. -/
def BenchId.deserialize (s : List Char) : Except (List Char) BenchId :=
  let id := splitChar '/' s
  if h : id.length = 3 then
    .ok ⟨id.get ⟨0, by omega⟩, replaceUC (id.get ⟨1, by omega⟩),
      id.get ⟨2, by omega⟩⟩
  else .error ("Expected 3 bench ID elements".toList)

/-! ### Aggregator data model (src/plot.rs)

`f64` is modelled as a rational or NaN (JSON never produces infinities in
this pipeline); `f64::MAX` is the largest finite double, `(2 - 2⁻⁵²)·2¹⁰²³`.
`DateTime<Utc>` is modelled as epoch seconds (`Int`); `Utc::now()` becomes
an explicit ambient clock parameter `now`, and chrono's
`DateTime::parse_from_rfc3339` an abstract parameter `p : RFCParse`
(composition with `with_timezone(&Utc)` preserves the instant). -/

inductive F64 where
  | nan : F64
  | fin : ℚ → F64
deriving DecidableEq

/-- IEEE `<` on doubles: false whenever either side is NaN. -/
def F64.blt : F64 → F64 → Bool
  | .fin a, .fin b => decide (a < b)
  | _, _ => false

/-- Rust `PartialOrd::partial_cmp` on doubles: `none` iff a NaN is involved. -/
def F64.pcmp : F64 → F64 → Option Ordering
  | .fin a, .fin b => some (compare a b)
  | _, _ => none

/-- `f64::MAX = (2 - 2⁻⁵²)·2¹⁰²³ = 2¹⁰²⁴ - 2⁹⁷¹` as an explicit numeral
(kept literal so that kernel reduction of comparisons stays feasible; the
closed form is proved in `fmaxQ_eq`). -/
def fmaxQ : ℚ := 179769313486231570814527423731704356798070567525844996598917476803157260780028538760589558632766878171540458953514382464234321326889464182768467546703537516986049910576551282076245490090389328944075868508455133942304583236903222948165808559332123348274797826204144723168738177180919299881250404026184124858368

def F64.MAX : F64 := .fin fmaxQ

def F64.MIN : F64 := .fin (-fmaxQ)

/-- chrono `DateTime::<Utc>::MIN_UTC` in epoch seconds (model constant for
the earliest representable instant). -/
def MIN_UTC : Int := -8334632851200

/-- Historical benchmark point: commit timestamp and measured time. -/
structure Point where
  x : Int
  y : F64
deriving DecidableEq

structure XAxisRange where
  min : Int
  max : Int
deriving DecidableEq

/-- `XAxisRange::default` (src/plot.rs lines 183-190): `min` is seeded with
`Utc::now()` (the ambient clock `now`), `max` with `MIN_UTC`. -/
def XAxisRange.default (now : Int) : XAxisRange := ⟨now, MIN_UTC⟩

/-- `MinMax::set_min_max` for the X axis (src/plot.rs lines 215-224). -/
def XAxisRange.set_min_max (r : XAxisRange) (value : Int) : XAxisRange :=
  let r1 := if value < r.min then { r with min := value } else r
  if value > r1.max then { r1 with max := value } else r1

structure YAxisRange where
  min : F64
  max : F64
deriving DecidableEq

/-- `YAxisRange::default` (src/plot.rs lines 200-207): flipped sentinels
`f64::MAX` / `f64::MIN`. -/
def YAxisRange.default : YAxisRange := ⟨F64.MAX, F64.MIN⟩

/-- `MinMax::set_min_max` for the Y axis (src/plot.rs lines 226-235);
`value > max` is IEEE `max < value`. -/
def YAxisRange.set_min_max (r : YAxisRange) (value : F64) : YAxisRange :=
  let r1 := if F64.blt value r.min then { r with min := value } else r
  if F64.blt r1.max value then { r1 with max := value } else r1

/-- A plot: axis ranges plus one line per params key.  `HashMap` is
modelled as an association list (unique keys by construction). -/
structure Plot where
  x_axis : XAxisRange
  y_axis : YAxisRange
  lines : List (GKey × List Point)
deriving DecidableEq

def Plot.new (now : Int) : Plot :=
  ⟨XAxisRange.default now, YAxisRange.default, []⟩

abbrev Plots := List (GKey × Plot)

def Plots.new : Plots := []

structure BenchResult where
  time : F64
deriving DecidableEq

structure BenchData where
  id : BenchId
  result : BenchResult
deriving DecidableEq

inductive PlotError where
  | timestampParse : PlotError
  | incomparable : PlotError
deriving DecidableEq

instance {e a : Type} [DecidableEq e] [DecidableEq a] :
    DecidableEq (Except e a) := fun x y =>
  match x, y with
  | .ok u, .ok v => decidable_of_iff (u = v) (by simp)
  | .error u, .error v => decidable_of_iff (u = v) (by simp)
  | .ok _, .error _ => isFalse (by simp)
  | .error _, .ok _ => isFalse (by simp)

abbrev RFCParse := List Char → Option Int

/-- `str_to_datetime` (src/plot.rs lines 88-96): removes the first 8
characters (the 7-character short sha plus the trailing separator; bytes in
Rust, characters here since inputs are ASCII) and parses the remainder as
RFC3339 via the chrono model `p`; a failed parse is the timestamp parse
error (`.expect("Timestamp parse error")` at the call site panics, i.e.
aborts the ingest). -/
def str_to_datetime (p : RFCParse) (input : List Char) : Except PlotError Int :=
  match p (input.drop 8) with
  | some dt => .ok dt
  | none => .error .timestampParse

/-- `HashMap::get` on the association-list model. -/
def findVal? {β : Type} : List (GKey × β) → GKey → Option β
  | [], _ => none
  | kv :: rest, g => if kv.1 = g then some kv.2 else findVal? rest g

/-- `HashMap::get_mut` followed by mutation: update the entry at `g`. -/
def modifyVal {β : Type} (m : List (GKey × β)) (g : GKey) (f : β → β) :
    List (GKey × β) :=
  m.map (fun kv => if kv.1 = g then (kv.1, f kv.2) else kv)

/-- `if map.get(k).is_none() { map.insert(k, d) }`: lazily create the entry
(HashMap insertion modelled as appending the fresh key). -/
def ensureKey {β : Type} (m : List (GKey × β)) (g : GKey) (d : β) :
    List (GKey × β) :=
  if (findVal? m g).isSome then m else m ++ [(g, d)]

/-- The mutation `Plots::add_data` performs on the plot of the record's
group: extend both axis ranges with the new point's coordinates, lazily
create the line for the params key, and push the point. -/
def updatePlot (commit_date : Int) (y : F64) (bp : GKey) (plot : Plot) : Plot :=
  let plot1 := { plot with x_axis := plot.x_axis.set_min_max commit_date }
  let plot2 := { plot1 with y_axis := plot1.y_axis.set_min_max y }
  { plot2 with
    lines := modifyVal (ensureKey plot2.lines bp []) bp
      (fun l => l ++ [⟨commit_date, y⟩]) }

/-- One iteration of the `for bench in bench_data` loop of
`Plots::add_data` (src/plot.rs lines 117-136): parse the commit date
(panicking, i.e. erroring, on failure), build the point `⟨commit_date,
bench.result.time⟩`, lazily create the plot for the group, and apply the
plot mutation. -/
def addBench (p : RFCParse) (now : Int) (st : Plots) (bench : BenchData) :
    Except PlotError Plots :=
  match str_to_datetime p bench.id.bench_name with
  | .error e => .error e
  | .ok commit_date =>
    .ok (modifyVal (ensureKey st bench.id.group_name (Plot.new now))
      bench.id.group_name
      (updatePlot commit_date bench.result.time bench.id.params))

/-- The record loop of `Plots::add_data`: on the first failing record the
call aborts (the Rust code panics), leaving the store as mutated so far. -/
def ingestLoop (p : RFCParse) (now : Int) :
    Plots → List BenchData → Plots × Option PlotError
  | st, [] => (st, none)
  | st, b :: rest =>
    match addBench p now st b with
    | .error e => (st, some e)
    | .ok st1 => ingestLoop p now st1 rest

/-- Derived `PartialOrd` on `Point`: lexicographic on `(x, y)`. -/
def pcmpPoint (a b : Point) : Option Ordering :=
  match compare a.x b.x with
  | .eq => F64.pcmp a.y b.y
  | o => some o

/-- Insertion into a sorted prefix using the panicking comparator of
`sort_by(|a, b| a.partial_cmp(b).unwrap())`: any comparison the sort
actually performs that returns `None` is a hard error. -/
def insertPoint (pt : Point) : List Point → Except PlotError (List Point)
  | [] => .ok [pt]
  | q :: rest =>
    match pcmpPoint pt q with
    | none => .error .incomparable
    | some .lt => .ok (pt :: q :: rest)
    | some _ =>
      match insertPoint pt rest with
      | .error e => .error e
      | .ok rest1 => .ok (q :: rest1)

/-- Model of `Vec::sort_by` with the panicking partial-order comparator
(stable; ties are structurally equal points, so stability is
unobservable). -/
def sortPoints : List Point → Except PlotError (List Point)
  | [] => .ok []
  | pt :: rest =>
    match sortPoints rest with
    | .error e => .error e
    | .ok rest1 => insertPoint pt rest1

def sortLines : List (GKey × List Point) → Except PlotError (List (GKey × List Point))
  | [] => .ok []
  | kv :: rest =>
    match sortPoints kv.2 with
    | .error e => .error e
    | .ok l1 =>
      match sortLines rest with
      | .error e => .error e
      | .ok rest1 => .ok ((kv.1, l1) :: rest1)

/-- The final pass of `Plots::add_data` (src/plot.rs lines 137-142): re-sort
every line of every plot in the whole store. -/
def sortStore : Plots → Except PlotError Plots
  | [] => .ok []
  | gp :: rest =>
    match sortLines gp.2.lines with
    | .error e => .error e
    | .ok ls =>
      match sortStore rest with
      | .error e => .error e
      | .ok rest1 => .ok ((gp.1, { gp.2 with lines := ls }) :: rest1)

/-- `Plots::add_data` (src/plot.rs lines 116-143): run the record loop,
then re-sort every series of the whole store.  A Rust panic (timestamp
parse failure or incomparable sort values) is modelled as the error
outcome. -/
def Plots.add_data (st : Plots) (p : RFCParse) (now : Int)
    (bench_data : List BenchData) : Except PlotError Plots :=
  match ingestLoop p now st bench_data with
  | (st1, none) => sortStore st1
  | (_, some e) => .error e

/-! ### Derived notions used by the claims -/

def linesPts (ls : List (GKey × List Point)) : List Point :=
  (ls.map (fun kv => kv.2)).flatten

/-- All points of a plot, across its lines. -/
def plotPts (pl : Plot) : List Point :=
  linesPts pl.lines

/-- The series stored for group `g` and params `k` (empty when absent). -/
def pointsIn (st : Plots) (g k : GKey) : List Point :=
  match findVal? st g with
  | none => []
  | some pl => (findVal? pl.lines k).getD []

/-- The points a list of records contributes to group `g`, params `k`,
in record order. -/
def ptsFor (p : RFCParse) (g k : GKey) (bd : List BenchData) : List Point :=
  bd.filterMap (fun b =>
    if b.id.group_name = g ∧ b.id.params = k then
      match str_to_datetime p b.id.bench_name with
      | .ok t => some ⟨t, b.result.time⟩
      | .error _ => none
    else none)

/-- Multiplicity of a point in the series stored for `(g, k)`. -/
def seriesCount (st : Plots) (g k : GKey) (pt : Point) : Nat :=
  (pointsIn st g k).count pt

/-- Sorted-ascending order used by the claims: `a` is at most `b` under the
derived lexicographic `(timestamp, value)` comparison. -/
def ptLe (a b : Point) : Prop :=
  pcmpPoint a b = some .lt ∨ pcmpPoint a b = some .eq

/-- A record the aggregator fully accepts within the representable bounds:
its timestamp parses to an instant between `MIN_UTC` and the ambient clock
`now`, and its value is a finite double. -/
def GoodBench (p : RFCParse) (now : Int) (b : BenchData) : Prop :=
  (∃ t, str_to_datetime p b.id.bench_name = .ok t ∧ MIN_UTC ≤ t ∧ t ≤ now) ∧
  (∃ q : ℚ, b.result.time = .fin q ∧ -fmaxQ ≤ q ∧ q ≤ fmaxQ)

/-- Every value in the plot is a finite double and both axis ranges equal
the true minimum and maximum over all points of the plot. -/
def PlotGood (pl : Plot) : Prop :=
  (∀ pt ∈ plotPts pl, ∃ q : ℚ, pt.y = F64.fin q) ∧
  (pl.x_axis.min ∈ (plotPts pl).map Point.x ∧
    ∀ x ∈ (plotPts pl).map Point.x, pl.x_axis.min ≤ x) ∧
  (pl.x_axis.max ∈ (plotPts pl).map Point.x ∧
    ∀ x ∈ (plotPts pl).map Point.x, x ≤ pl.x_axis.max) ∧
  (∃ qmin : ℚ, pl.y_axis.min = F64.fin qmin ∧
    F64.fin qmin ∈ (plotPts pl).map Point.y ∧
    ∀ q : ℚ, F64.fin q ∈ (plotPts pl).map Point.y → qmin ≤ q) ∧
  (∃ qmax : ℚ, pl.y_axis.max = F64.fin qmax ∧
    F64.fin qmax ∈ (plotPts pl).map Point.y ∧
    ∀ q : ℚ, F64.fin q ∈ (plotPts pl).map Point.y → q ≤ qmax)

def StoreGood (st : Plots) : Prop :=
  ∀ g pl, (g, pl) ∈ st → PlotGood pl

/-- Structural invariant of the store: unique group keys and, within each
plot, unique params keys (HashMap semantics). -/
def StoreWF (st : Plots) : Prop :=
  (st.map Prod.fst).Nodup ∧
  ∀ gp ∈ st, (gp.2.lines.map Prod.fst).Nodup

/-- Stores reachable from the empty store by successful `add_data` calls
whose records are all within bounds. -/
inductive ReachableGood (p : RFCParse) (now : Int) : Plots → Prop where
  | nil : ReachableGood p now Plots.new
  | step (st : Plots) (bd : List BenchData) (st1 : Plots) :
      ReachableGood p now st → (∀ b ∈ bd, GoodBench p now b) →
      Plots.add_data st p now bd = .ok st1 → ReachableGood p now st1

/-- All point values in the store are finite doubles (no NaN). -/
def StoreFin (st : Plots) : Prop :=
  ∀ g pl, (g, pl) ∈ st → ∀ k l, (k, l) ∈ pl.lines → ∀ pt ∈ l,
    ∃ q : ℚ, pt.y = F64.fin q

/-- Two stores with the same groups, ranges and line keys whose
corresponding series are permutations of each other. -/
def PlotEquiv (a b : Plot) : Prop :=
  a.x_axis = b.x_axis ∧ a.y_axis = b.y_axis ∧
  List.Forall₂ (fun u v => u.1 = v.1 ∧ u.2.Perm v.2) a.lines b.lines

def StoreEquiv (s1 s2 : Plots) : Prop :=
  List.Forall₂ (fun u v => u.1 = v.1 ∧ PlotEquiv u.2 v.2) s1 s2

theorem fmaxQ_eq : fmaxQ = 2 ^ 1024 - 2 ^ 971 := by
  unfold fmaxQ
  norm_num

theorem RSD.new_WF {T V : Type} (b : Buffer T V) : (RSD.new b).WF :=
  ⟨[], rfl, rfl, rfl, rfl⟩

theorem lenSum_nil {T V : Type} : lenSum ([] : List (Chunk T V)) = 0 := rfl

theorem lenSum_append {T V : Type} (xs ys : List (Chunk T V)) :
    lenSum (xs ++ ys) = lenSum xs + lenSum ys := by
  simp [lenSum]

theorem lenSum_cons {T V : Type} (c : Chunk T V) (cs : List (Chunk T V)) :
    lenSum (c :: cs) = c.len + lenSum cs := by
  simp [lenSum]

theorem dropChunks_zero {T V : Type} (cs : List (Chunk T V)) :
    dropChunks cs 0 = (cs, 0) := by
  cases cs <;> rfl

/-- Slicing at the boundary after a prefix drops exactly that prefix. -/
theorem dropChunks_boundary {T V : Type} (pre cs : List (Chunk T V))
    (hpos : ∀ c ∈ pre, 0 < c.len) :
    dropChunks (pre ++ cs) (lenSum pre) = (cs, 0) := by
  induction pre with
  | nil => simpa using dropChunks_zero cs
  | cons c pre ih =>
      have hc : 0 < c.len := hpos c (by simp)
      have hrest : ∀ c' ∈ pre, 0 < c'.len := fun c' hc' => hpos c' (by simp [hc'])
      have hlen : lenSum (c :: pre) = c.len + lenSum pre := lenSum_cons c pre
      rw [hlen]
      obtain ⟨m, hm⟩ : ∃ m, c.len + lenSum pre = m + 1 :=
        ⟨c.len + lenSum pre - 1, by omega⟩
      rw [List.cons_append]
      rw [show dropChunks (c :: (pre ++ cs)) (c.len + lenSum pre)
            = dropChunks (c :: (pre ++ cs)) (m + 1) by rw [hm]]
      have hnotlt : ¬ m + 1 < c.len := by omega
      simp only [dropChunks, hnotlt, if_false]
      rw [show m + 1 - c.len = lenSum pre by omega]
      exact ih hrest

/-- Slicing past all chunks leaves the requested leftover inside the tail. -/
theorem dropChunks_all {T V : Type} (cs : List (Chunk T V)) (m : Nat)
    (hpos : ∀ c ∈ cs, 0 < c.len) :
    dropChunks cs (lenSum cs + m) = ([], m) := by
  induction cs with
  | nil =>
      cases m with
      | zero => simp [lenSum, dropChunks_zero]
      | succ m => simp [lenSum]; rfl
  | cons c cs ih =>
      have hc : 0 < c.len := hpos c (by simp)
      have hrest : ∀ c' ∈ cs, 0 < c'.len := fun c' hc' => hpos c' (by simp [hc'])
      rw [lenSum_cons]
      obtain ⟨k, hk⟩ : ∃ k, c.len + lenSum cs + m = k + 1 :=
        ⟨c.len + lenSum cs + m - 1, by omega⟩
      rw [hk]
      have hnotlt : ¬ k + 1 < c.len := by omega
      simp only [dropChunks, hnotlt, if_false]
      rw [show k + 1 - c.len = lenSum cs + m by omega]
      exact ih hrest

theorem sliceFrom_boundary {T V : Type} (pre cs : List (Chunk T V)) (t : Nat)
    (hpos : ∀ c ∈ pre, 0 < c.len) :
    Buffer.sliceFrom ⟨pre ++ cs, t⟩ (lenSum pre) = ⟨cs, t⟩ := by
  simp [Buffer.sliceFrom, dropChunks_boundary pre cs hpos]

theorem sliceFrom_end {T V : Type} (cs : List (Chunk T V)) (t : Nat)
    (hpos : ∀ c ∈ cs, 0 < c.len) :
    Buffer.sliceFrom ⟨cs, t⟩ (lenSum cs + t) = ⟨[], 0⟩ := by
  simp [Buffer.sliceFrom, dropChunks_all cs t hpos]

/-! ### Single-pull characterization of the decoder -/

theorem RSD.next_ok {T V : Type} (json : Buffer T V) (c : Chunk T V)
    (cs : List (Chunk T V)) (tl off lp : Nat) (t : T) (hc : c.typed = some t) :
    RSD.next ⟨json, ⟨⟨c :: cs, tl⟩, off⟩, lp⟩ =
      some (.ok t, ⟨json, ⟨⟨cs, tl⟩, off + c.len⟩, off + c.len⟩) := by
  simp [RSD.next, streamNextT, hc]

theorem RSD.next_mismatch {T V : Type} (pre cs : List (Chunk T V))
    (c : Chunk T V) (jt : Nat) (hpos : ∀ x ∈ pre, 0 < x.len)
    (hclen : 0 < c.len) (hc : c.typed = none) :
    RSD.next ⟨⟨pre ++ c :: cs, jt⟩, ⟨⟨c :: cs, jt⟩, lenSum pre⟩, lenSum pre⟩ =
      some (.error ⟨some c.val⟩, RSD.new ⟨cs, jt⟩) := by
  have h1 : Buffer.sliceFrom ⟨pre ++ c :: cs, jt⟩ (lenSum pre) = ⟨c :: cs, jt⟩ :=
    sliceFrom_boundary pre (c :: cs) jt hpos
  have hpos2 : ∀ x ∈ pre ++ [c], 0 < x.len := by
    intro x hx
    rcases List.mem_append.mp hx with h | h
    · exact hpos x h
    · have hxc : x = c := by simpa using h
      rw [hxc]; exact hclen
  have h2 : Buffer.sliceFrom ⟨pre ++ c :: cs, jt⟩ (lenSum pre + c.len) = ⟨cs, jt⟩ := by
    have := sliceFrom_boundary (pre ++ [c]) cs jt hpos2
    simpa [lenSum_append, lenSum_cons, List.append_assoc] using this
  simp [RSD.next, streamNextT, hc, h1, streamNextV, mkStream, RSD.new,
    Except.toOption, h2]

theorem RSD.next_syntax {T V : Type} (pre : List (Chunk T V)) (jt : Nat)
    (hpos : ∀ x ∈ pre, 0 < x.len) (hjt : 0 < jt) :
    RSD.next ⟨⟨pre, jt⟩, ⟨⟨[], jt⟩, lenSum pre⟩, lenSum pre⟩ =
      some (.error ⟨none⟩, RSD.new ⟨[], 0⟩) := by
  have h1 : Buffer.sliceFrom ⟨pre, jt⟩ (lenSum pre) = ⟨[], jt⟩ := by
    have := sliceFrom_boundary pre [] jt hpos
    simpa using this
  have h2 : Buffer.sliceFrom ⟨pre, jt⟩ (Buffer.byteLen ⟨pre, jt⟩) = ⟨[], 0⟩ :=
    sliceFrom_end pre jt hpos
  have hne : jt ≠ 0 := by omega
  simp [RSD.next, streamNextT, hne, h1, streamNextV, mkStream, RSD.new,
    Except.toOption, h2]

theorem RSD.next_none {T V : Type} (json : Buffer T V) (off lp : Nat) :
    RSD.next ⟨json, ⟨⟨[], 0⟩, off⟩, lp⟩ = none := by
  simp [RSD.next, streamNextT]

theorem RSD.run_of_next_none {T V : Type} (s : RSD T V) (h : s.next = none) :
    ∀ f, s.run f = [] := by
  intro f
  cases f with
  | zero => rfl
  | succ f => simp [RSD.run, h]

/-- Every pull from a well-formed state preserves well-formedness and makes
strictly positive progress through the buffer. -/
theorem RSD.next_progress {T V : Type} (s : RSD T V) (hwf : s.WF)
    (hpos : s.json.posLens) :
    ∀ r s1, s.next = some (r, s1) →
      s1.WF ∧ s1.json.posLens ∧ s1.remaining < s.remaining := by
  obtain ⟨⟨jc, jt0⟩, ⟨⟨sc, jt⟩, so⟩, lp⟩ := s
  obtain ⟨pre, hc, ht, ho, hl⟩ := hwf
  simp only at hc ht ho hl
  subst hc ht ho hl
  intro r s1 hnext
  have hposPre : ∀ x ∈ pre, 0 < x.len := by
    intro x hx
    exact hpos x (List.mem_append.mpr (Or.inl hx))
  cases sc with
  | nil =>
      simp only [List.append_nil] at hnext hpos ⊢
      cases Nat.eq_zero_or_pos jt with
      | inl hz =>
          subst hz
          rw [RSD.next_none] at hnext
          exact absurd hnext (by simp)
      | inr hpos' =>
          rw [RSD.next_syntax pre jt hposPre hpos'] at hnext
          simp only [Option.some.injEq, Prod.mk.injEq] at hnext
          obtain ⟨hr, hs1⟩ := hnext
          subst hs1
          refine ⟨RSD.new_WF _, by simp [Buffer.posLens, RSD.new], ?_⟩
          simp [RSD.remaining, RSD.new, mkStream, Buffer.byteLen, lenSum]
          omega
  | cons c cs =>
      have hclen : 0 < c.len := by
        refine hpos c (List.mem_append.mpr (Or.inr ?_))
        simp
      cases htyp : c.typed with
      | some t =>
          rw [RSD.next_ok _ c cs jt (lenSum pre) (lenSum pre) t htyp] at hnext
          simp only [Option.some.injEq, Prod.mk.injEq] at hnext
          obtain ⟨hr, hs1⟩ := hnext
          subst hs1
          refine ⟨⟨pre ++ [c], by simp, rfl,
            by simp [lenSum_append, lenSum_cons, lenSum_nil], rfl⟩, hpos, ?_⟩
          simp [RSD.remaining, Buffer.byteLen, lenSum_append, lenSum_cons]
          omega
      | none =>
          rw [RSD.next_mismatch pre cs c jt hposPre hclen htyp] at hnext
          simp only [Option.some.injEq, Prod.mk.injEq] at hnext
          obtain ⟨hr, hs1⟩ := hnext
          subst hs1
          refine ⟨RSD.new_WF _, ?_, ?_⟩
          · intro x hx
            refine hpos x (List.mem_append.mpr (Or.inr ?_))
            simp [RSD.new] at hx
            simp [hx]
          · simp [RSD.remaining, RSD.new, mkStream, Buffer.byteLen,
              lenSum_append, lenSum_cons]
            omega

/-- The sequence ends (pull yields `none`) exactly when the cursor has
reached the end of the buffer. -/
theorem RSD.next_none_iff {T V : Type} (s : RSD T V) (hwf : s.WF)
    (hpos : s.json.posLens) :
    s.next = none ↔ s.remaining = 0 := by
  obtain ⟨⟨jc, jt0⟩, ⟨⟨sc, jt⟩, so⟩, lp⟩ := s
  obtain ⟨pre, hc, ht, ho, hl⟩ := hwf
  simp only at hc ht ho hl
  subst hc ht ho hl
  have hposPre : ∀ x ∈ pre, 0 < x.len := by
    intro x hx
    exact hpos x (List.mem_append.mpr (Or.inl hx))
  have hrem : RSD.remaining
      (⟨⟨pre ++ sc, jt⟩, ⟨⟨sc, jt⟩, lenSum pre⟩, lenSum pre⟩ : RSD T V) =
      lenSum sc + jt := by
    simp [RSD.remaining, Buffer.byteLen, lenSum_append]
    omega
  rw [hrem]
  cases sc with
  | nil =>
      simp only [List.append_nil]
      cases Nat.eq_zero_or_pos jt with
      | inl hz =>
          subst hz
          simp [RSD.next_none, lenSum]
      | inr hpos' =>
          rw [RSD.next_syntax pre jt hposPre hpos']
          simp [lenSum]
          omega
  | cons c cs =>
      have hclen : 0 < c.len := by
        refine hpos c (List.mem_append.mpr (Or.inr ?_))
        simp
      have hne : ¬ (lenSum (c :: cs) + jt = 0) := by
        rw [lenSum_cons]; omega
      cases htyp : c.typed with
      | some t =>
          rw [RSD.next_ok _ c cs jt (lenSum pre) (lenSum pre) t htyp]
          simp [hne]
      | none =>
          rw [RSD.next_mismatch pre cs c jt hposPre hclen htyp]
          simp [hne]

/-- Once the fuel covers the number of unconsumed bytes, the produced list
of results no longer depends on the fuel: the sequence is finite. -/
theorem RSD.run_fuel_stable {T V : Type} :
    ∀ (n : Nat) (s : RSD T V), s.WF → s.json.posLens → s.remaining = n →
      ∀ f1 f2, n ≤ f1 → n ≤ f2 → s.run f1 = s.run f2 := by
  intro n
  induction n using Nat.strong_induction_on with
  | _ n ih =>
    intro s hwf hpos hrem f1 f2 h1 h2
    cases n with
    | zero =>
        have hnone : s.next = none := (RSD.next_none_iff s hwf hpos).mpr hrem
        rw [RSD.run_of_next_none s hnone, RSD.run_of_next_none s hnone]
    | succ m =>
        obtain ⟨a, ha⟩ : ∃ a, f1 = a + 1 := ⟨f1 - 1, by omega⟩
        obtain ⟨b, hb⟩ : ∃ b, f2 = b + 1 := ⟨f2 - 1, by omega⟩
        subst ha hb
        cases hnext : s.next with
        | none => simp [RSD.run, hnext]
        | some rs =>
            obtain ⟨r, s1⟩ := rs
            obtain ⟨hwf1, hpos1, hdec⟩ :=
              RSD.next_progress s hwf hpos r s1 hnext
            rw [hrem] at hdec
            simp only [RSD.run, hnext]
            have hrec := ih s1.remaining hdec s1 hwf1 hpos1 rfl a b
              (by omega) (by omega)
            rw [hrec]

/-- When every unconsumed chunk typed-decodes and there is no corrupt
tail, the decoder simply streams out the decoded records in order. -/
theorem RSD.run_all_typed {T V : Type} :
    ∀ (recs : List T) (f : Nat) (s : RSD T V),
      s.stream.rest.chunks.map Chunk.typed = recs.map some →
      s.stream.rest.tailLen = 0 → recs.length ≤ f →
      s.run f = recs.map Except.ok := by
  intro recs
  induction recs with
  | nil =>
      intro f s hmap htail _
      obtain ⟨json, ⟨⟨sc, stl⟩, off⟩, lp⟩ := s
      simp only at hmap htail
      have hsc : sc = [] := by simpa using hmap
      subst hsc htail
      rw [RSD.run_of_next_none _ (RSD.next_none json off lp) f]
      simp
  | cons r rs ih =>
      intro f s hmap htail hf
      obtain ⟨json, ⟨⟨sc, stl⟩, off⟩, lp⟩ := s
      simp only at hmap htail hf
      subst htail
      cases sc with
      | nil => simp at hmap
      | cons c cs =>
          simp only [List.map_cons, List.cons.injEq] at hmap
          obtain ⟨hcr, hcs⟩ := hmap
          obtain ⟨f', hf'⟩ : ∃ f', f = f' + 1 := ⟨f - 1, by simp at hf; omega⟩
          subst hf'
          simp only [RSD.run, RSD.next_ok json c cs 0 off lp r hcr]
          have := ih f' ⟨json, ⟨⟨cs, 0⟩, off + c.len⟩, off + c.len⟩ hcs rfl
            (by simp at hf; omega)
          rw [this]
          simp

/-! ### Decoder claims -/

/-- C1: For every buffer, when a pull's typed decode of the next JSON value
fails, the decoder re-parses the slice from the last confirmed-good offset
(that slice is exactly the unconsumed remainder) as an untyped JSON value;
if that re-parse succeeds it yields `Err(SchemaMismatch(value))` carrying
the parsed value, advances the cursor exactly past that value's byte length
and continues in a well-formed state; if that re-parse fails it yields
`Err(Syntax)`, sets the cursor to end-of-buffer, and that item is the last
the sequence ever produces. -/
theorem C1_stream_error_recovery (T V : Type) (s : RSD T V) (hwf : s.WF)
    (hpos : s.json.posLens) :
    s.json.sliceFrom s.last_ok_pos = s.stream.rest ∧
    (∀ c cs, s.stream.rest.chunks = c :: cs → c.typed = none →
      s.next = some (.error ⟨some c.val⟩, RSD.new ⟨cs, s.json.tailLen⟩) ∧
      (RSD.new (⟨cs, s.json.tailLen⟩ : Buffer T V)).remaining + c.len =
        s.remaining ∧
      (RSD.new (⟨cs, s.json.tailLen⟩ : Buffer T V)).WF) ∧
    (s.stream.rest.chunks = [] → 0 < s.json.tailLen →
      s.next = some (.error ⟨none⟩, RSD.new ⟨[], 0⟩) ∧
      (RSD.new (⟨[], 0⟩ : Buffer T V)).remaining = 0 ∧
      ∀ fuel, (RSD.new (⟨[], 0⟩ : Buffer T V)).run fuel = []) := by
  obtain ⟨⟨jc, jt0⟩, ⟨⟨sc, jt⟩, so⟩, lp⟩ := s
  obtain ⟨pre, hc, ht, ho, hl⟩ := hwf
  simp only at hc ht ho hl
  subst hc ht ho hl
  have hposPre : ∀ x ∈ pre, 0 < x.len := by
    intro x hx
    exact hpos x (List.mem_append.mpr (Or.inl hx))
  refine ⟨?_, ?_, ?_⟩
  · simpa using sliceFrom_boundary pre sc jt hposPre
  · intro c cs hsc hctyped
    simp only at hsc
    subst hsc
    have hclen : 0 < c.len := by
      refine hpos c (List.mem_append.mpr (Or.inr ?_))
      simp
    refine ⟨RSD.next_mismatch pre cs c jt hposPre hclen hctyped, ?_, RSD.new_WF _⟩
    simp [RSD.remaining, RSD.new, mkStream, Buffer.byteLen, lenSum_append,
      lenSum_cons]
    omega
  · intro hsc hjt
    simp only at hsc hjt
    subst hsc
    simp only [List.append_nil]
    refine ⟨RSD.next_syntax pre jt hposPre hjt, by simp [RSD.remaining, RSD.new,
      mkStream, Buffer.byteLen, lenSum], ?_⟩
    exact RSD.run_of_next_none _ (RSD.next_none _ _ _)

theorem C1_stream_error_recovery_witness :
    (RSD.new (⟨[⟨3, 5, none⟩], 0⟩ : Buffer Nat Nat)).next =
        some (.error ⟨some 3⟩, RSD.new ⟨[], 0⟩) ∧
    (RSD.new (⟨[], 7⟩ : Buffer Nat Nat)).next =
        some (.error ⟨none⟩, RSD.new ⟨[], 0⟩) :=
  ⟨((C1_stream_error_recovery Nat Nat (RSD.new ⟨[⟨3, 5, none⟩], 0⟩)
      (RSD.new_WF _) (by decide)).2.1 ⟨3, 5, none⟩ [] rfl rfl).1,
   ((C1_stream_error_recovery Nat Nat (RSD.new ⟨[], 7⟩)
      (RSD.new_WF _) (by decide)).2.2 rfl (by decide)).1⟩

/-- C2: Every pull from a well-formed decoder state makes strictly positive
progress through the buffer (the count of unconsumed bytes strictly
decreases, so no item is yielded twice and no byte range is skipped without
being accounted for); the pull yields `none` exactly when the cursor has
reached end-of-buffer; and once the fuel covers the unconsumed bytes, the
produced sequence is independent of the fuel, i.e. the decoded sequence is
finite and ends exactly at end-of-buffer. -/
theorem C2_progress_and_termination (T V : Type) (s : RSD T V) (hwf : s.WF)
    (hpos : s.json.posLens) :
    (∀ r s1, s.next = some (r, s1) →
      s1.WF ∧ s1.json.posLens ∧ s1.remaining < s.remaining) ∧
    (s.next = none ↔ s.remaining = 0) ∧
    (∀ f1 f2, s.remaining ≤ f1 → s.remaining ≤ f2 → s.run f1 = s.run f2) :=
  ⟨RSD.next_progress s hwf hpos, RSD.next_none_iff s hwf hpos,
   fun f1 f2 h1 h2 => RSD.run_fuel_stable s.remaining s hwf hpos rfl f1 f2 h1 h2⟩

theorem C2_progress_and_termination_witness :
    ((RSD.new (⟨[⟨0, 4, some 9⟩], 0⟩ : Buffer Nat Nat)).next = none ↔
      (RSD.new (⟨[⟨0, 4, some 9⟩], 0⟩ : Buffer Nat Nat)).remaining = 0) :=
  (C2_progress_and_termination Nat Nat (RSD.new ⟨[⟨0, 4, some 9⟩], 0⟩)
    (RSD.new_WF _) (by decide)).2.1

/-- C7: For every buffer consisting of well-formed, correctly-shaped JSON
records (every chunk typed-decodes) and no corrupt tail, the stream decoder
yields exactly the decoded records as `Ok` results, in buffer order, and
nothing else. -/
theorem C7_clean_buffer_all_ok (T V : Type) (buf : Buffer T V) (recs : List T)
    (hty : buf.chunks.map Chunk.typed = recs.map some) (ht : buf.tailLen = 0) :
    ∀ f, recs.length ≤ f → (RSD.new buf).run f = recs.map Except.ok :=
  fun f hf => RSD.run_all_typed recs f (RSD.new buf) hty ht hf

theorem C7_clean_buffer_all_ok_witness :
    (RSD.new (⟨[⟨0, 2, some 5⟩, ⟨1, 3, some 6⟩], 0⟩ : Buffer Nat Nat)).run 3 =
      [Except.ok 5, Except.ok 6] :=
  C7_clean_buffer_all_ok Nat Nat ⟨[⟨0, 2, some 5⟩, ⟨1, 3, some 6⟩], 0⟩ [5, 6]
    rfl rfl 3 (by decide)

/-! ### Order properties of the point comparator -/

theorem compareSwap {α : Type} [LinearOrder α] (a b : α) :
    compare b a = (compare a b).swap := by
  rcases lt_trichotomy a b with h | h | h
  · rw [compare_lt_iff_lt.mpr h]
    exact compare_gt_iff_gt.mpr h
  · rw [compare_eq_iff_eq.mpr h]
    exact compare_eq_iff_eq.mpr h.symm
  · rw [compare_gt_iff_gt.mpr h]
    exact compare_lt_iff_lt.mpr h

theorem pcmpPoint_swap (a b : Point) :
    pcmpPoint b a = (pcmpPoint a b).map Ordering.swap := by
  unfold pcmpPoint
  rw [compareSwap a.x b.x]
  rcases hc : compare a.x b.x with _ | _ | _
  · rfl
  · show F64.pcmp b.y a.y = (F64.pcmp a.y b.y).map Ordering.swap
    cases hy : a.y <;> cases hz : b.y <;> simp [F64.pcmp]
    exact compareSwap _ _
  · rfl

theorem ptLe_iff (a b : Point) : ptLe a b ↔
    (a.x < b.x ∨ (a.x = b.x ∧
      ∃ qa qb : ℚ, a.y = .fin qa ∧ b.y = .fin qb ∧ qa ≤ qb)) := by
  unfold ptLe pcmpPoint
  rcases hc : compare a.x b.x with _ | _ | _
  · have hlt : a.x < b.x := compare_lt_iff_lt.mp hc
    simp [hlt]
  · have heq : a.x = b.x := compare_eq_iff_eq.mp hc
    have hnlt : ¬ a.x < b.x := by omega
    simp only [hnlt, false_or, heq, true_and]
    cases hy : a.y <;> cases hz : b.y <;> simp [F64.pcmp]
    constructor
    · rintro (h | h)
      · exact le_of_lt (compare_lt_iff_lt.mp h)
      · exact le_of_eq (compare_eq_iff_eq.mp h)
    · intro h
      rcases lt_or_eq_of_le h with h1 | h1
      · exact Or.inl (compare_lt_iff_lt.mpr h1)
      · exact Or.inr (compare_eq_iff_eq.mpr h1)
  · have hgt : b.x < a.x := compare_gt_iff_gt.mp hc
    have h1 : ¬ a.x < b.x := by omega
    have h2 : a.x ≠ b.x := by omega
    simp [h1, h2]

instance ptLeTransInst : IsTrans Point ptLe := by
  constructor
  intro a b c hab hbc
  rw [ptLe_iff] at hab hbc ⊢
  rcases hab with h1 | ⟨h1, qa, qb, hqa, hqb, hle1⟩
  · rcases hbc with h2 | ⟨h2, _⟩
    · exact Or.inl (by omega)
    · exact Or.inl (by omega)
  · rcases hbc with h2 | ⟨h2, qb2, qc, hqb2, hqc, hle2⟩
    · exact Or.inl (by omega)
    · refine Or.inr ⟨by omega, qa, qc, hqa, hqc, ?_⟩
      have hqbeq : qb = qb2 := F64.fin.inj (hqb.symm.trans hqb2)
      subst hqbeq
      exact le_trans hle1 hle2

instance ptLeAntisymmInst : IsAntisymm Point ptLe := by
  constructor
  intro a b hab hba
  rw [ptLe_iff] at hab hba
  rcases hab with h1 | ⟨h1, qa, qb, hqa, hqb, hle1⟩
  · rcases hba with h2 | ⟨h2, _⟩ <;> omega
  · rcases hba with h2 | ⟨h2, qb2, qa2, hqb2, hqa2, hle2⟩
    · omega
    · have hq1 : qa = qa2 := F64.fin.inj (hqa.symm.trans hqa2)
      have hq2 : qb = qb2 := F64.fin.inj (hqb.symm.trans hqb2)
      have hq : qa = qb := by
        subst hq1 hq2
        exact le_antisymm hle1 hle2
      obtain ⟨ax, ay⟩ := a
      obtain ⟨bx, by'⟩ := b
      simp_all

theorem ptLe_of_pcmp_ge (a b : Point) (o : Ordering)
    (h : pcmpPoint a b = some o) (ho : o = .eq ∨ o = .gt) : ptLe b a := by
  have := pcmpPoint_swap a b
  rw [h] at this
  rcases ho with rfl | rfl
  · exact Or.inr (by simpa using this)
  · exact Or.inl (by simpa using this)

/-! ### Behaviour of the panicking sort -/

theorem insertPoint_perm (pt : Point) :
    ∀ l l1, insertPoint pt l = .ok l1 → l1.Perm (pt :: l) := by
  intro l
  induction l with
  | nil =>
      intro l1 h
      simp only [insertPoint, Except.ok.injEq] at h
      subst h
      exact List.Perm.refl _
  | cons q rest ih =>
      intro l1 h
      rcases hc : pcmpPoint pt q with _ | o
      · simp [insertPoint, hc] at h
      · rcases o with _ | _ | _
        · simp only [insertPoint, hc, Except.ok.injEq] at h
          subst h
          exact List.Perm.refl _
        all_goals
          simp only [insertPoint, hc] at h
          rcases hrec : insertPoint pt rest with e | rest1 <;> rw [hrec] at h <;>
            simp at h
          subst h
          exact (List.Perm.cons q (ih rest1 hrec)).trans (List.Perm.swap pt q rest)

theorem insertPoint_sorted (pt : Point) :
    ∀ l l1, List.Pairwise ptLe l → insertPoint pt l = .ok l1 →
      List.Pairwise ptLe l1 := by
  intro l
  induction l with
  | nil =>
      intro l1 _ h
      simp only [insertPoint, Except.ok.injEq] at h
      subst h
      simp
  | cons q rest ih =>
      intro l1 hp h
      rw [List.pairwise_cons] at hp
      obtain ⟨hq, hrest⟩ := hp
      rcases hc : pcmpPoint pt q with _ | o
      · simp [insertPoint, hc] at h
      · rcases o with _ | _ | _
        · simp only [insertPoint, hc, Except.ok.injEq] at h
          subst h
          rw [List.pairwise_cons]
          refine ⟨?_, by rw [List.pairwise_cons]; exact ⟨hq, hrest⟩⟩
          intro z hz
          rcases List.mem_cons.mp hz with rfl | hz
          · exact Or.inl hc
          · exact IsTrans.trans pt q z (Or.inl hc) (hq z hz)
        all_goals
          simp only [insertPoint, hc] at h
          rcases hrec : insertPoint pt rest with e | rest1 <;> rw [hrec] at h <;>
            simp at h
          subst h
          rw [List.pairwise_cons]
          refine ⟨?_, ih rest1 hrest hrec⟩
          intro z hz
          have hmem := (insertPoint_perm pt rest rest1 hrec).mem_iff.mp hz
          rcases List.mem_cons.mp hmem with rfl | hz2
          · exact ptLe_of_pcmp_ge z q _ hc (by simp)
          · exact hq z hz2

theorem insertPoint_ok (pt : Point) (hpt : ∃ q, pt.y = F64.fin q) :
    ∀ l, (∀ z ∈ l, ∃ q, z.y = F64.fin q) →
      ∃ l1, insertPoint pt l = .ok l1 := by
  intro l
  induction l with
  | nil => exact fun _ => ⟨[pt], rfl⟩
  | cons q rest ih =>
      intro hfin
      obtain ⟨qp, hqp⟩ := hpt
      obtain ⟨qq, hqq⟩ := hfin q (by simp)
      have hc : ∃ o, pcmpPoint pt q = some o := by
        unfold pcmpPoint
        rcases compare pt.x q.x with _ | _ | _
        · exact ⟨_, rfl⟩
        · rw [hqp, hqq]
          exact ⟨_, rfl⟩
        · exact ⟨_, rfl⟩
      obtain ⟨o, ho⟩ := hc
      rcases o with _ | _ | _
      · exact ⟨pt :: q :: rest, by simp [insertPoint, ho]⟩
      all_goals
        obtain ⟨rest1, hrest1⟩ := ih (fun z hz => hfin z (by simp [hz]))
        exact ⟨q :: rest1, by simp [insertPoint, ho, hrest1]⟩

theorem insertPoint_error (pt : Point) :
    ∀ l e, insertPoint pt l = .error e → e = .incomparable := by
  intro l
  induction l with
  | nil => intro e h; simp [insertPoint] at h
  | cons q rest ih =>
      intro e h
      rcases hc : pcmpPoint pt q with _ | o
      · simp only [insertPoint, hc, Except.error.injEq] at h
        exact h.symm
      · rcases o with _ | _ | _
        · simp [insertPoint, hc] at h
        all_goals
          simp only [insertPoint, hc] at h
          rcases hrec : insertPoint pt rest with e1 | rest1 <;> rw [hrec] at h <;>
            simp at h
          subst h
          exact ih e1 hrec

theorem sortPoints_perm : ∀ l l1, sortPoints l = .ok l1 → l1.Perm l := by
  intro l
  induction l with
  | nil =>
      intro l1 h
      simp only [sortPoints, Except.ok.injEq] at h
      subst h
      exact List.Perm.refl _
  | cons pt rest ih =>
      intro l1 h
      simp only [sortPoints] at h
      rcases hr : sortPoints rest with e | rest1 <;> rw [hr] at h
      · simp at h
      · exact (insertPoint_perm pt rest1 l1 h).trans
          (List.Perm.cons pt (ih rest1 hr))

theorem sortPoints_sorted : ∀ l l1, sortPoints l = .ok l1 →
    List.Pairwise ptLe l1 := by
  intro l
  induction l with
  | nil =>
      intro l1 h
      simp only [sortPoints, Except.ok.injEq] at h
      subst h
      simp
  | cons pt rest ih =>
      intro l1 h
      simp only [sortPoints] at h
      rcases hr : sortPoints rest with e | rest1 <;> rw [hr] at h
      · simp at h
      · exact insertPoint_sorted pt rest1 l1 (ih rest1 hr) h

theorem sortPoints_ok : ∀ l, (∀ z ∈ l, ∃ q, z.y = F64.fin q) →
    ∃ l1, sortPoints l = .ok l1 := by
  intro l
  induction l with
  | nil => exact fun _ => ⟨[], rfl⟩
  | cons pt rest ih =>
      intro hfin
      obtain ⟨rest1, hrest1⟩ := ih (fun z hz => hfin z (by simp [hz]))
      obtain ⟨l1, hl1⟩ := insertPoint_ok pt (hfin pt (by simp)) rest1
        (fun z hz => hfin z
          (by simp [(sortPoints_perm rest rest1 hrest1).mem_iff.mp hz]))
      exact ⟨l1, by simp [sortPoints, hrest1, hl1]⟩

theorem sortPoints_error : ∀ l e, sortPoints l = .error e →
    e = .incomparable := by
  intro l
  induction l with
  | nil => intro e h; simp [sortPoints] at h
  | cons pt rest ih =>
      intro e h
      simp only [sortPoints] at h
      rcases hr : sortPoints rest with e1 | rest1 <;> rw [hr] at h
      · simp at h
        subst h
        exact ih e1 hr
      · exact insertPoint_error pt rest1 e h

theorem sortPoints_congr (l1 l2 : List Point) (hperm : l1.Perm l2)
    (hfin : ∀ z ∈ l1, ∃ q, z.y = F64.fin q) :
    sortPoints l1 = sortPoints l2 := by
  obtain ⟨s1, h1⟩ := sortPoints_ok l1 hfin
  obtain ⟨s2, h2⟩ := sortPoints_ok l2 (fun z hz => hfin z (hperm.mem_iff.mpr hz))
  rw [h1, h2]
  congr 1
  exact List.eq_of_perm_of_sorted
    (((sortPoints_perm l1 s1 h1).trans hperm).trans
      (sortPoints_perm l2 s2 h2).symm)
    (sortPoints_sorted l1 s1 h1) (sortPoints_sorted l2 s2 h2)

/-- Pointwise characterization of a successful `sortLines`. -/
theorem sortLines_char : ∀ ls ls1, sortLines ls = .ok ls1 →
    List.Forall₂ (fun u v => u.1 = v.1 ∧ sortPoints u.2 = .ok v.2) ls ls1 := by
  intro ls
  induction ls with
  | nil =>
      intro ls1 h
      simp only [sortLines, Except.ok.injEq] at h
      subst h
      exact List.Forall₂.nil
  | cons kv rest ih =>
      intro ls1 h
      simp only [sortLines] at h
      rcases h1 : sortPoints kv.2 with e | l1 <;> rw [h1] at h
      · simp at h
      · rcases h2 : sortLines rest with e | rest1 <;> rw [h2] at h
        · simp at h
        · simp only [Except.ok.injEq] at h
          subst h
          exact List.Forall₂.cons ⟨rfl, h1⟩ (ih rest1 h2)

theorem sortLines_ok : ∀ ls, (∀ kv ∈ ls, ∀ z ∈ kv.2, ∃ q, z.y = F64.fin q) →
    ∃ ls1, sortLines ls = .ok ls1 := by
  intro ls
  induction ls with
  | nil => exact fun _ => ⟨[], rfl⟩
  | cons kv rest ih =>
      intro hfin
      obtain ⟨l1, hl1⟩ := sortPoints_ok kv.2 (hfin kv (by simp))
      obtain ⟨rest1, hrest1⟩ := ih (fun kv2 h2 => hfin kv2 (by simp [h2]))
      exact ⟨(kv.1, l1) :: rest1, by simp [sortLines, hl1, hrest1]⟩

theorem sortLines_error : ∀ ls e, sortLines ls = .error e →
    e = .incomparable := by
  intro ls
  induction ls with
  | nil => intro e h; simp [sortLines] at h
  | cons kv rest ih =>
      intro e h
      simp only [sortLines] at h
      rcases h1 : sortPoints kv.2 with e1 | l1 <;> rw [h1] at h
      · simp at h
        subst h
        exact sortPoints_error kv.2 e1 h1
      · rcases h2 : sortLines rest with e2 | rest1 <;> rw [h2] at h
        · simp at h
          subst h
          exact ih e2 h2
        · simp at h

/-- Pointwise characterization of a successful `sortStore`. -/
theorem sortStore_char : ∀ st st1, sortStore st = .ok st1 →
    List.Forall₂ (fun u v => u.1 = v.1 ∧ u.2.x_axis = v.2.x_axis ∧
      u.2.y_axis = v.2.y_axis ∧ sortLines u.2.lines = .ok v.2.lines) st st1 := by
  intro st
  induction st with
  | nil =>
      intro st1 h
      simp only [sortStore, Except.ok.injEq] at h
      subst h
      exact List.Forall₂.nil
  | cons gp rest ih =>
      intro st1 h
      simp only [sortStore] at h
      rcases h1 : sortLines gp.2.lines with e | ls <;> rw [h1] at h
      · simp at h
      · rcases h2 : sortStore rest with e | rest1 <;> rw [h2] at h
        · simp at h
        · simp only [Except.ok.injEq] at h
          subst h
          exact List.Forall₂.cons ⟨rfl, rfl, rfl, h1⟩ (ih rest1 h2)

theorem sortStore_ok : ∀ st, StoreFin st → ∃ st1, sortStore st = .ok st1 := by
  intro st
  induction st with
  | nil => exact fun _ => ⟨[], rfl⟩
  | cons gp rest ih =>
      intro hfin
      obtain ⟨ls, hls⟩ := sortLines_ok gp.2.lines
        (fun kv hkv z hz => hfin gp.1 gp.2 (by simp) kv.1 kv.2 (by simpa using hkv)
          z hz)
      obtain ⟨rest1, hrest1⟩ := ih
        (fun g pl hmem k l hl z hz => hfin g pl (by simp [hmem]) k l hl z hz)
      exact ⟨(gp.1, { gp.2 with lines := ls }) :: rest1,
        by simp [sortStore, hls, hrest1]⟩

theorem sortStore_error : ∀ st e, sortStore st = .error e →
    e = .incomparable := by
  intro st
  induction st with
  | nil => intro e h; simp [sortStore] at h
  | cons gp rest ih =>
      intro e h
      simp only [sortStore] at h
      rcases h1 : sortLines gp.2.lines with e1 | ls <;> rw [h1] at h
      · simp at h
        subst h
        exact sortLines_error gp.2.lines e1 h1
      · rcases h2 : sortStore rest with e2 | rest1 <;> rw [h2] at h
        · simp at h
          subst h
          exact ih e2 h2
        · simp at h

theorem forall2_mem_right {α β : Type} {R : α → β → Prop} :
    ∀ {l1 : List α} {l2 : List β}, List.Forall₂ R l1 l2 →
      ∀ b ∈ l2, ∃ a ∈ l1, R a b := by
  intro l1 l2 h
  induction h with
  | nil => simp
  | cons hr _ ih =>
      intro b hb
      rcases List.mem_cons.mp hb with rfl | hb
      · exact ⟨_, by simp, hr⟩
      · obtain ⟨a, ha, har⟩ := ih b hb
        exact ⟨a, by simp [ha], har⟩

/-! ### Association-list lookup lemmas -/

theorem findVal?_modifyVal_self {β : Type} (m : List (GKey × β)) (g : GKey)
    (f : β → β) : findVal? (modifyVal m g f) g = (findVal? m g).map f := by
  induction m with
  | nil => rfl
  | cons kv rest ih =>
      simp only [modifyVal, List.map_cons] at ih ⊢
      by_cases hk : kv.1 = g
      · simp only [if_pos hk, findVal?, hk, if_true]
        rfl
      · simp only [if_neg hk, findVal?, hk, if_false]
        exact ih

theorem findVal?_modifyVal_other {β : Type} (m : List (GKey × β)) (g k : GKey)
    (f : β → β) (h : k ≠ g) :
    findVal? (modifyVal m g f) k = findVal? m k := by
  induction m with
  | nil => rfl
  | cons kv rest ih =>
      simp only [modifyVal, List.map_cons] at ih ⊢
      by_cases hk : kv.1 = g
      · have hne : ¬ kv.1 = k := by rw [hk]; exact fun hh => h hh.symm
        simp only [if_pos hk, findVal?, hne, if_false]
        exact ih
      · simp only [if_neg hk, findVal?]
        by_cases hk2 : kv.1 = k
        · simp only [hk2, if_true]
        · simp only [hk2, if_false]
          exact ih

theorem findVal?_append_none {β : Type} (m1 m2 : List (GKey × β)) (g : GKey)
    (h : findVal? m1 g = none) : findVal? (m1 ++ m2) g = findVal? m2 g := by
  induction m1 with
  | nil => rfl
  | cons kv rest ih =>
      by_cases hk : kv.1 = g
      · simp [findVal?, hk] at h
      · simp [findVal?, hk] at h ⊢
        exact ih h

theorem findVal?_append_some {β : Type} (m1 m2 : List (GKey × β)) (g : GKey)
    (v : β) (h : findVal? m1 g = some v) : findVal? (m1 ++ m2) g = some v := by
  induction m1 with
  | nil => simp [findVal?] at h
  | cons kv rest ih =>
      by_cases hk : kv.1 = g <;> simp [findVal?, hk] at h ⊢
      · exact h
      · exact ih h

theorem findVal?_ensureKey_self {β : Type} (m : List (GKey × β)) (g : GKey)
    (d : β) : findVal? (ensureKey m g d) g = some ((findVal? m g).getD d) := by
  cases hs : findVal? m g with
  | some v => simp [ensureKey, hs]
  | none =>
      simp only [ensureKey, hs, Option.isSome_none, Bool.false_eq_true,
        if_false, Option.getD_none]
      rw [findVal?_append_none m _ g hs]
      simp [findVal?]

theorem findVal?_ensureKey_other {β : Type} (m : List (GKey × β)) (g k : GKey)
    (d : β) (h : k ≠ g) : findVal? (ensureKey m g d) k = findVal? m k := by
  by_cases hs : (findVal? m g).isSome
  · simp [ensureKey, hs]
  · rw [ensureKey, if_neg hs]
    cases hg : findVal? m k with
    | some v => exact findVal?_append_some m _ k v hg
    | none =>
        rw [findVal?_append_none m _ k hg]
        have hne : ¬ g = k := fun hh => h hh.symm
        simp [findVal?, hne]

theorem findVal?_eq_none_iff {β : Type} (m : List (GKey × β)) (g : GKey) :
    findVal? m g = none ↔ ∀ kv ∈ m, kv.1 ≠ g := by
  induction m with
  | nil => simp [findVal?]
  | cons kv rest ih =>
      constructor
      · intro h kv2 h2
        by_cases hk : kv.1 = g
        · rw [findVal?, if_pos hk] at h
          exact absurd h (by simp)
        · rw [findVal?, if_neg hk] at h
          rcases List.mem_cons.mp h2 with rfl | h2
          · exact hk
          · exact (ih.mp h) kv2 h2
      · intro h
        have hk : kv.1 ≠ g := h kv (by simp)
        rw [findVal?, if_neg hk]
        exact ih.mpr (fun kv2 h2 => h kv2 (by simp [h2]))

theorem modifyVal_id_of_absent {β : Type} (m : List (GKey × β)) (g : GKey)
    (f : β → β) (h : findVal? m g = none) : modifyVal m g f = m := by
  rw [findVal?_eq_none_iff] at h
  induction m with
  | nil => rfl
  | cons kv rest ih =>
      have hk : kv.1 ≠ g := h kv (by simp)
      simp only [modifyVal, List.map_cons, if_neg hk]
      rw [show List.map (fun kv => if kv.1 = g then (kv.1, f kv.2) else kv) rest
          = modifyVal rest g f from rfl,
        ih (fun kv2 h2 => h kv2 (by simp [h2]))]

theorem modifyVal_keys {β : Type} (m : List (GKey × β)) (g : GKey) (f : β → β) :
    (modifyVal m g f).map Prod.fst = m.map Prod.fst := by
  induction m with
  | nil => rfl
  | cons kv rest ih =>
      show (if kv.1 = g then (kv.1, f kv.2) else kv).1 ::
          (modifyVal rest g f).map Prod.fst = kv.1 :: rest.map Prod.fst
      rw [ih]
      by_cases hk : kv.1 = g
      · rw [if_pos hk]
      · rw [if_neg hk]

theorem ensureKey_keys_nodup {β : Type} (m : List (GKey × β)) (g : GKey)
    (d : β) (h : (m.map Prod.fst).Nodup) :
    ((ensureKey m g d).map Prod.fst).Nodup := by
  by_cases hs : (findVal? m g).isSome
  · simpa [ensureKey, hs] using h
  · have hnone : findVal? m g = none := by
      cases hg : findVal? m g
      · rfl
      · rw [hg] at hs; simp at hs
    rw [findVal?_eq_none_iff] at hnone
    rw [ensureKey, if_neg hs, List.map_append]
    rw [List.nodup_append]
    refine ⟨h, List.nodup_singleton g, ?_⟩
    intro a ha hb
    rw [show (([(g, d)] : List (GKey × β)).map Prod.fst) = [g] from rfl,
      List.mem_singleton] at hb
    subst hb
    rw [List.mem_map] at ha
    obtain ⟨kv, hkv, hfst⟩ := ha
    exact hnone kv hkv hfst

theorem mem_modifyVal {β : Type} (m : List (GKey × β)) (g : GKey) (f : β → β)
    (k : GKey) (v : β) (h : (k, v) ∈ modifyVal m g f) :
    (k ≠ g ∧ (k, v) ∈ m) ∨ (k = g ∧ ∃ v0, (k, v0) ∈ m ∧ v = f v0) := by
  simp only [modifyVal, List.mem_map] at h
  obtain ⟨kv, hkv, heq⟩ := h
  by_cases hk : kv.1 = g
  · rw [if_pos hk] at heq
    obtain ⟨h1, h2⟩ := Prod.mk.injEq .. ▸ heq
    right
    refine ⟨h1 ▸ hk, kv.2, ?_, h2.symm⟩
    rw [← h1]
    exact hkv
  · rw [if_neg hk] at heq
    left
    subst heq
    exact ⟨hk, hkv⟩

theorem mem_ensureKey {β : Type} (m : List (GKey × β)) (g : GKey) (d : β)
    (k : GKey) (v : β) (h : (k, v) ∈ ensureKey m g d) :
    (k, v) ∈ m ∨ (k = g ∧ v = d ∧ findVal? m g = none) := by
  by_cases hs : (findVal? m g).isSome
  · rw [ensureKey, if_pos hs] at h
    exact Or.inl h
  · rw [ensureKey, if_neg hs] at h
    rcases List.mem_append.mp h with h1 | h1
    · exact Or.inl h1
    · simp only [List.mem_singleton, Prod.mk.injEq] at h1
      refine Or.inr ⟨h1.1, h1.2, ?_⟩
      cases hg : findVal? m g
      · rfl
      · rw [hg] at hs; simp at hs

/-! ### Effect of one `add_data` loop iteration -/

theorem updatePlot_x_axis (cd : Int) (y : F64) (bp : GKey) (pl : Plot) :
    (updatePlot cd y bp pl).x_axis = pl.x_axis.set_min_max cd := rfl

theorem updatePlot_y_axis (cd : Int) (y : F64) (bp : GKey) (pl : Plot) :
    (updatePlot cd y bp pl).y_axis = pl.y_axis.set_min_max y := rfl

theorem updatePlot_lines_self (cd : Int) (y : F64) (bp : GKey) (pl : Plot) :
    findVal? (updatePlot cd y bp pl).lines bp =
      some ((findVal? pl.lines bp).getD [] ++ [⟨cd, y⟩]) := by
  show findVal? (modifyVal (ensureKey pl.lines bp []) bp
    (fun l => l ++ [⟨cd, y⟩])) bp = _
  rw [findVal?_modifyVal_self, findVal?_ensureKey_self]
  rfl

theorem updatePlot_lines_other (cd : Int) (y : F64) (bp k : GKey) (pl : Plot)
    (h : k ≠ bp) :
    findVal? (updatePlot cd y bp pl).lines k = findVal? pl.lines k := by
  show findVal? (modifyVal (ensureKey pl.lines bp []) bp
    (fun l => l ++ [⟨cd, y⟩])) k = _
  rw [findVal?_modifyVal_other _ _ _ _ h, findVal?_ensureKey_other _ _ _ _ h]

theorem addBench_ok (p : RFCParse) (now : Int) (st : Plots) (b : BenchData)
    (t : Int) (ht : str_to_datetime p b.id.bench_name = .ok t) :
    addBench p now st b =
      .ok (modifyVal (ensureKey st b.id.group_name (Plot.new now))
        b.id.group_name (updatePlot t b.result.time b.id.params)) := by
  simp [addBench, ht]

theorem addBench_error (p : RFCParse) (now : Int) (st : Plots) (b : BenchData)
    (e : PlotError) (he : str_to_datetime p b.id.bench_name = .error e) :
    addBench p now st b = .error e := by
  simp [addBench, he]

/-- Effect of one loop iteration on every stored series: the derived point
is appended to the series of the record's (group, params) key and nothing
else changes. -/
theorem addBench_pointsIn (now : Int) (st : Plots)
    (b : BenchData) (t : Int) (g k : GKey) :
    pointsIn (modifyVal (ensureKey st b.id.group_name (Plot.new now))
        b.id.group_name (updatePlot t b.result.time b.id.params)) g k =
      if g = b.id.group_name ∧ k = b.id.params
      then pointsIn st g k ++ [⟨t, b.result.time⟩]
      else pointsIn st g k := by
  by_cases hg : g = b.id.group_name
  · subst hg
    have h1 : findVal? (modifyVal (ensureKey st b.id.group_name (Plot.new now))
        b.id.group_name (updatePlot t b.result.time b.id.params))
          b.id.group_name =
        some (updatePlot t b.result.time b.id.params
          ((findVal? st b.id.group_name).getD (Plot.new now))) := by
      rw [findVal?_modifyVal_self, findVal?_ensureKey_self]
      rfl
    by_cases hk : k = b.id.params
    · subst hk
      rw [if_pos ⟨rfl, rfl⟩]
      simp only [pointsIn, h1, updatePlot_lines_self, Option.getD_some]
      cases hsg : findVal? st b.id.group_name with
      | none => simp [Plot.new, findVal?]
      | some pl => rfl
    · have hif : ¬ (b.id.group_name = b.id.group_name ∧ k = b.id.params) :=
        fun hh => hk hh.2
      rw [if_neg hif]
      simp only [pointsIn, h1, Option.getD_some]
      rw [updatePlot_lines_other _ _ _ _ _ hk]
      cases hsg : findVal? st b.id.group_name with
      | none => simp [Plot.new, findVal?]
      | some pl => rfl
  · have hif : ¬ (g = b.id.group_name ∧ k = b.id.params) := fun hh => hg hh.1
    rw [if_neg hif]
    have h1 : findVal? (modifyVal (ensureKey st b.id.group_name (Plot.new now))
        b.id.group_name (updatePlot t b.result.time b.id.params)) g =
        findVal? st g := by
      rw [findVal?_modifyVal_other _ _ _ _ hg,
        findVal?_ensureKey_other _ _ _ _ hg]
    simp only [pointsIn, h1]

/-! ### Range extension and the per-iteration plot mutation -/

theorem xset_min (r : XAxisRange) (v : Int) :
    (r.set_min_max v).min = if v < r.min then v else r.min := by
  unfold XAxisRange.set_min_max
  by_cases h1 : v < r.min <;> by_cases h2 : r.max < v <;> simp [h1, h2]

theorem xset_max (r : XAxisRange) (v : Int) :
    (r.set_min_max v).max = if r.max < v then v else r.max := by
  unfold XAxisRange.set_min_max
  by_cases h1 : v < r.min <;> by_cases h2 : r.max < v <;> simp [h1, h2]

theorem yset_min (r : YAxisRange) (v : F64) :
    (r.set_min_max v).min = if F64.blt v r.min then v else r.min := by
  unfold YAxisRange.set_min_max
  by_cases h1 : F64.blt v r.min = true <;>
    by_cases h2 : F64.blt r.max v = true <;> simp [h1, h2]

theorem yset_max (r : YAxisRange) (v : F64) :
    (r.set_min_max v).max = if F64.blt r.max v then v else r.max := by
  unfold YAxisRange.set_min_max
  by_cases h1 : F64.blt v r.min = true <;>
    by_cases h2 : F64.blt r.max v = true <;> simp [h1, h2]

theorem blt_fin_if (a b : ℚ) (x y : F64) :
    (if F64.blt (F64.fin a) (F64.fin b) then x else y) =
      if a < b then x else y := by
  by_cases h : a < b <;> simp [F64.blt, h]

theorem linesPts_cons (kv : GKey × List Point) (ls : List (GKey × List Point)) :
    linesPts (kv :: ls) = kv.2 ++ linesPts ls := by
  simp [linesPts]

theorem linesPts_append (l1 l2 : List (GKey × List Point)) :
    linesPts (l1 ++ l2) = linesPts l1 ++ linesPts l2 := by
  simp [linesPts]

theorem ensureKey_isSome {β : Type} (ls : List (GKey × β)) (g : GKey) (d : β) :
    (findVal? (ensureKey ls g d) g).isSome := by
  rw [findVal?_ensureKey_self]
  rfl

theorem linesPts_ensureKey (ls : List (GKey × List Point)) (bp : GKey) :
    linesPts (ensureKey ls bp []) = linesPts ls := by
  unfold ensureKey
  split
  · rfl
  · rw [linesPts_append]
    simp [linesPts]

theorem linesPts_modify_append (ls : List (GKey × List Point)) (bp : GKey)
    (pt : Point) (hnd : (ls.map Prod.fst).Nodup)
    (hsome : (findVal? ls bp).isSome) :
    (linesPts (modifyVal ls bp (fun l => l ++ [pt]))).Perm
      (linesPts ls ++ [pt]) := by
  induction ls with
  | nil => simp [findVal?] at hsome
  | cons kv rest ih =>
      rw [List.map_cons, List.nodup_cons] at hnd
      obtain ⟨hnotin, hndrest⟩ := hnd
      show (linesPts ((if kv.1 = bp then (kv.1, kv.2 ++ [pt]) else kv) ::
        modifyVal rest bp (fun l => l ++ [pt]))).Perm _
      by_cases hk : kv.1 = bp
      · have hnone : findVal? rest bp = none := by
          rw [findVal?_eq_none_iff]
          intro kv2 h2 hbp2
          refine hnotin ?_
          rw [hk, ← hbp2]
          exact List.mem_map_of_mem Prod.fst h2
        rw [if_pos hk, modifyVal_id_of_absent _ _ _ hnone, linesPts_cons,
          linesPts_cons]
        show ((kv.2 ++ [pt]) ++ linesPts rest).Perm
          ((kv.2 ++ linesPts rest) ++ [pt])
        rw [List.append_assoc, List.append_assoc]
        exact List.Perm.append_left kv.2 List.perm_append_comm
      · have hsome2 : (findVal? rest bp).isSome := by
          rw [findVal?, if_neg hk] at hsome
          exact hsome
        rw [if_neg hk, linesPts_cons, linesPts_cons, List.append_assoc]
        exact List.Perm.append_left kv.2 (ih hndrest hsome2)

theorem updatePlot_pts (cd : Int) (y : F64) (bp : GKey) (pl : Plot)
    (hnd : (pl.lines.map Prod.fst).Nodup) :
    (plotPts (updatePlot cd y bp pl)).Perm (plotPts pl ++ [⟨cd, y⟩]) := by
  show (linesPts (modifyVal (ensureKey pl.lines bp []) bp
    (fun l => l ++ [⟨cd, y⟩]))).Perm _
  have h := linesPts_modify_append (ensureKey pl.lines bp []) bp ⟨cd, y⟩
    (ensureKey_keys_nodup _ _ _ hnd) (ensureKey_isSome _ _ _)
  rw [linesPts_ensureKey] at h
  exact h

theorem updatePlot_keys_nodup (cd : Int) (y : F64) (bp : GKey) (pl : Plot)
    (hnd : (pl.lines.map Prod.fst).Nodup) :
    ((updatePlot cd y bp pl).lines.map Prod.fst).Nodup := by
  show ((modifyVal (ensureKey pl.lines bp []) bp
    (fun l => l ++ [⟨cd, y⟩])).map Prod.fst).Nodup
  rw [modifyVal_keys]
  exact ensureKey_keys_nodup _ _ _ hnd

/-! ### Exact range tracking -/

theorem min_extend {xs : List Int} {m cd : Int} (hmem : m ∈ xs)
    (hbound : ∀ x ∈ xs, m ≤ x) :
    ((if cd < m then cd else m) ∈ xs ++ [cd]) ∧
    ∀ x ∈ xs ++ [cd], (if cd < m then cd else m) ≤ x := by
  by_cases h : cd < m
  · rw [if_pos h]
    refine ⟨by simp, ?_⟩
    intro x hx
    rcases List.mem_append.mp hx with hx | hx
    · exact le_trans (le_of_lt h) (hbound x hx)
    · simp at hx
      omega
  · rw [if_neg h]
    refine ⟨List.mem_append.mpr (Or.inl hmem), ?_⟩
    intro x hx
    rcases List.mem_append.mp hx with hx | hx
    · exact hbound x hx
    · simp at hx
      omega

theorem max_extend {xs : List Int} {m cd : Int} (hmem : m ∈ xs)
    (hbound : ∀ x ∈ xs, x ≤ m) :
    ((if m < cd then cd else m) ∈ xs ++ [cd]) ∧
    ∀ x ∈ xs ++ [cd], x ≤ (if m < cd then cd else m) := by
  by_cases h : m < cd
  · rw [if_pos h]
    refine ⟨by simp, ?_⟩
    intro x hx
    rcases List.mem_append.mp hx with hx | hx
    · exact le_trans (hbound x hx) (le_of_lt h)
    · simp at hx
      omega
  · rw [if_neg h]
    refine ⟨List.mem_append.mpr (Or.inl hmem), ?_⟩
    intro x hx
    rcases List.mem_append.mp hx with hx | hx
    · exact hbound x hx
    · simp at hx
      omega

theorem fmin_extend {ys : List F64} {qmin q : ℚ} (hmem : F64.fin qmin ∈ ys)
    (hbound : ∀ r, F64.fin r ∈ ys → qmin ≤ r) :
    (F64.fin (if q < qmin then q else qmin) ∈ ys ++ [F64.fin q]) ∧
    ∀ r, F64.fin r ∈ ys ++ [F64.fin q] →
      (if q < qmin then q else qmin) ≤ r := by
  by_cases h : q < qmin
  · rw [if_pos h]
    refine ⟨by simp, ?_⟩
    intro r hr
    rcases List.mem_append.mp hr with hr | hr
    · exact le_trans (le_of_lt h) (hbound r hr)
    · simp only [List.mem_singleton] at hr
      rw [F64.fin.inj hr]
  · rw [if_neg h]
    refine ⟨List.mem_append.mpr (Or.inl hmem), ?_⟩
    intro r hr
    rcases List.mem_append.mp hr with hr | hr
    · exact hbound r hr
    · simp only [List.mem_singleton] at hr
      rw [F64.fin.inj hr]
      exact le_of_not_lt h

theorem fmax_extend {ys : List F64} {qmax q : ℚ} (hmem : F64.fin qmax ∈ ys)
    (hbound : ∀ r, F64.fin r ∈ ys → r ≤ qmax) :
    (F64.fin (if qmax < q then q else qmax) ∈ ys ++ [F64.fin q]) ∧
    ∀ r, F64.fin r ∈ ys ++ [F64.fin q] →
      r ≤ (if qmax < q then q else qmax) := by
  by_cases h : qmax < q
  · rw [if_pos h]
    refine ⟨by simp, ?_⟩
    intro r hr
    rcases List.mem_append.mp hr with hr | hr
    · exact le_trans (hbound r hr) (le_of_lt h)
    · simp only [List.mem_singleton] at hr
      rw [F64.fin.inj hr]
  · rw [if_neg h]
    refine ⟨List.mem_append.mpr (Or.inl hmem), ?_⟩
    intro r hr
    rcases List.mem_append.mp hr with hr | hr
    · exact hbound r hr
    · simp only [List.mem_singleton] at hr
      rw [F64.fin.inj hr]
      exact le_of_not_lt h

/-- Extending a plot whose ranges are exact keeps them exact, with no
assumptions on the new point's coordinates. -/
theorem PlotGood_update (pl : Plot) (bp : GKey) (cd : Int) (q : ℚ)
    (h : PlotGood pl) (hnd : (pl.lines.map Prod.fst).Nodup) :
    PlotGood (updatePlot cd (F64.fin q) bp pl) := by
  obtain ⟨hfin, ⟨hm1, hm2⟩, ⟨hM1, hM2⟩, ⟨qmin, hy1, hy2, hy3⟩,
    ⟨qmax, hz1, hz2, hz3⟩⟩ := h
  have hperm := updatePlot_pts cd (F64.fin q) bp pl hnd
  have hpermx := hperm.map Point.x
  have hpermy := hperm.map Point.y
  rw [List.map_append] at hpermx hpermy
  simp only [List.map_cons, List.map_nil] at hpermx hpermy
  refine ⟨?_, ⟨?_, ?_⟩, ⟨?_, ?_⟩, ?_, ?_⟩
  · intro pt hpt
    rcases List.mem_append.mp (hperm.mem_iff.mp hpt) with h2 | h2
    · exact hfin pt h2
    · simp only [List.mem_singleton] at h2
      rw [h2]
      exact ⟨q, rfl⟩
  · rw [updatePlot_x_axis, xset_min]
    exact hpermx.mem_iff.mpr (min_extend hm1 hm2).1
  · intro x hx
    rw [updatePlot_x_axis, xset_min]
    exact (min_extend hm1 hm2).2 x (hpermx.mem_iff.mp hx)
  · rw [updatePlot_x_axis, xset_max]
    exact hpermx.mem_iff.mpr (max_extend hM1 hM2).1
  · intro x hx
    rw [updatePlot_x_axis, xset_max]
    exact (max_extend hM1 hM2).2 x (hpermx.mem_iff.mp hx)
  · refine ⟨if q < qmin then q else qmin, ?_, ?_, ?_⟩
    · rw [updatePlot_y_axis, yset_min, hy1, blt_fin_if]
      exact (apply_ite F64.fin _ _ _).symm
    · exact hpermy.mem_iff.mpr (fmin_extend hy2 hy3).1
    · intro r hr
      exact (fmin_extend hy2 hy3).2 r (hpermy.mem_iff.mp hr)
  · refine ⟨if qmax < q then q else qmax, ?_, ?_, ?_⟩
    · rw [updatePlot_y_axis, yset_max, hz1, blt_fin_if]
      exact (apply_ite F64.fin _ _ _).symm
    · exact hpermy.mem_iff.mpr (fmax_extend hz2 hz3).1
    · intro r hr
      exact (fmax_extend hz2 hz3).2 r (hpermy.mem_iff.mp hr)

/-- A freshly created plot receives its first point in the same loop
iteration; for an in-bounds point the seeded sentinels make both min and
max equal to that first point's coordinates. -/
theorem PlotGood_new (now : Int) (bp : GKey) (cd : Int) (q : ℚ)
    (hcd1 : MIN_UTC ≤ cd) (hcd2 : cd ≤ now) (hq1 : -fmaxQ ≤ q)
    (hq2 : q ≤ fmaxQ) :
    PlotGood (updatePlot cd (F64.fin q) bp (Plot.new now)) := by
  have hpts : plotPts (updatePlot cd (F64.fin q) bp (Plot.new now)) =
      [⟨cd, F64.fin q⟩] := by
    have e1 : ensureKey ([] : List (GKey × List Point)) bp [] = [(bp, [])] := by
      unfold ensureKey
      simp [findVal?]
    show linesPts (modifyVal (ensureKey ([] : List (GKey × List Point)) bp [])
      bp (fun l => l ++ [⟨cd, F64.fin q⟩])) = _
    rw [e1]
    unfold modifyVal
    simp [linesPts]
  have hx : (updatePlot cd (F64.fin q) bp (Plot.new now)).x_axis =
      ⟨cd, cd⟩ := by
    rw [updatePlot_x_axis]
    show (XAxisRange.set_min_max ⟨now, MIN_UTC⟩ cd) = _
    have h1 : (XAxisRange.set_min_max ⟨now, MIN_UTC⟩ cd).min = cd := by
      rw [xset_min]
      show (if cd < now then cd else now) = cd
      split <;> omega
    have h2 : (XAxisRange.set_min_max ⟨now, MIN_UTC⟩ cd).max = cd := by
      rw [xset_max]
      show (if MIN_UTC < cd then cd else MIN_UTC) = cd
      split <;> omega
    cases hset : XAxisRange.set_min_max ⟨now, MIN_UTC⟩ cd
    rw [hset] at h1 h2
    simp at h1 h2
    rw [h1, h2]
  have hy : (updatePlot cd (F64.fin q) bp (Plot.new now)).y_axis =
      ⟨F64.fin q, F64.fin q⟩ := by
    rw [updatePlot_y_axis]
    show (YAxisRange.set_min_max ⟨F64.MAX, F64.MIN⟩ (F64.fin q)) = _
    have h1 : (YAxisRange.set_min_max ⟨F64.MAX, F64.MIN⟩ (F64.fin q)).min =
        F64.fin q := by
      rw [yset_min]
      show (if F64.blt (F64.fin q) F64.MAX then F64.fin q else F64.MAX) = _
      rw [show F64.MAX = F64.fin fmaxQ from rfl, blt_fin_if]
      split
      · rfl
      · rw [show fmaxQ = q from le_antisymm (le_of_not_lt (by assumption)) hq2]
    have h2 : (YAxisRange.set_min_max ⟨F64.MAX, F64.MIN⟩ (F64.fin q)).max =
        F64.fin q := by
      rw [yset_max]
      show (if F64.blt F64.MIN (F64.fin q) then F64.fin q else F64.MIN) = _
      rw [show F64.MIN = F64.fin (-fmaxQ) from rfl, blt_fin_if]
      split
      · rfl
      · rw [show -fmaxQ = q from le_antisymm hq1 (le_of_not_lt (by assumption))]
    cases hset : YAxisRange.set_min_max ⟨F64.MAX, F64.MIN⟩ (F64.fin q)
    rw [hset] at h1 h2
    simp at h1 h2
    rw [h1, h2]
  refine ⟨?_, ⟨?_, ?_⟩, ⟨?_, ?_⟩, ?_, ?_⟩ <;>
    simp only [hpts, hx, hy, List.map_cons, List.map_nil]
  · intro pt hpt
    simp only [List.mem_singleton] at hpt
    rw [hpt]
    exact ⟨q, rfl⟩
  · simp
  · intro x hx
    simp at hx
    omega
  · simp
  · intro x hx
    simp at hx
    omega
  · exact ⟨q, rfl, by simp, fun r hr => by
      simp only [List.mem_singleton] at hr
      rw [F64.fin.inj hr]⟩
  · exact ⟨q, rfl, by simp, fun r hr => by
      simp only [List.mem_singleton] at hr
      rw [F64.fin.inj hr]⟩

theorem forall2_fst_eq {β γ : Type} {R : (GKey × β) → (GKey × γ) → Prop}
    (hR : ∀ u v, R u v → u.1 = v.1) :
    ∀ {l1 : List (GKey × β)} {l2 : List (GKey × γ)}, List.Forall₂ R l1 l2 →
      l1.map Prod.fst = l2.map Prod.fst := by
  intro l1 l2 h
  induction h with
  | nil => rfl
  | cons hr _ ih =>
      rw [List.map_cons, List.map_cons, hR _ _ hr, ih]

theorem linesPts_perm_of_sortLines (ls ls1 : List (GKey × List Point))
    (h : sortLines ls = .ok ls1) : (linesPts ls1).Perm (linesPts ls) := by
  have hchar := sortLines_char ls ls1 h
  clear h
  induction hchar with
  | nil => exact List.Perm.refl _
  | cons hr _ ih =>
      rw [linesPts_cons, linesPts_cons]
      exact (sortPoints_perm _ _ hr.2).append ih

theorem PlotGood_congr (pl pl1 : Plot) (hxa : pl1.x_axis = pl.x_axis)
    (hya : pl1.y_axis = pl.y_axis) (hp : (plotPts pl1).Perm (plotPts pl))
    (h : PlotGood pl) : PlotGood pl1 := by
  obtain ⟨hfin, ⟨hm1, hm2⟩, ⟨hM1, hM2⟩, ⟨qmin, hy1, hy2, hy3⟩,
    ⟨qmax, hz1, hz2, hz3⟩⟩ := h
  have hpx := hp.map Point.x
  have hpy := hp.map Point.y
  exact ⟨fun pt hpt => hfin pt (hp.mem_iff.mp hpt),
    ⟨by rw [hxa]; exact hpx.mem_iff.mpr hm1,
      fun x hx2 => by rw [hxa]; exact hm2 x (hpx.mem_iff.mp hx2)⟩,
    ⟨by rw [hxa]; exact hpx.mem_iff.mpr hM1,
      fun x hx2 => by rw [hxa]; exact hM2 x (hpx.mem_iff.mp hx2)⟩,
    ⟨qmin, by rw [hya]; exact hy1, hpy.mem_iff.mpr hy2,
      fun r hr => hy3 r (hpy.mem_iff.mp hr)⟩,
    ⟨qmax, by rw [hya]; exact hz1, hpy.mem_iff.mpr hz2,
      fun r hr => hz3 r (hpy.mem_iff.mp hr)⟩⟩

/-- Re-sorting the whole store preserves exact ranges and the structural
invariant. -/
theorem sortStore_good (st st1 : Plots) (h : sortStore st = .ok st1)
    (hg : StoreGood st) (hwf : StoreWF st) : StoreGood st1 ∧ StoreWF st1 := by
  have hchar := sortStore_char st st1 h
  constructor
  · intro g pl hmem
    obtain ⟨a, hmem0, hrel⟩ := forall2_mem_right hchar (g, pl) hmem
    refine PlotGood_congr a.2 pl hrel.2.1.symm hrel.2.2.1.symm
      (linesPts_perm_of_sortLines _ _ hrel.2.2.2) (hg a.1 a.2 hmem0)
  · constructor
    · rw [← forall2_fst_eq (fun u v hr => hr.1) hchar]
      exact hwf.1
    · intro gp hmem
      obtain ⟨a, hmem0, hrel⟩ := forall2_mem_right hchar gp hmem
      have hkeys : gp.2.lines.map Prod.fst = a.2.lines.map Prod.fst :=
        (forall2_fst_eq (fun u v hr => hr.1)
          (sortLines_char _ _ hrel.2.2.2)).symm
      rw [hkeys]
      exact hwf.2 a hmem0

/-- One loop iteration preserves exact ranges and the structural invariant
for in-bounds records. -/
theorem addBench_good (p : RFCParse) (now : Int) (st : Plots) (b : BenchData)
    (t : Int) (ht : str_to_datetime p b.id.bench_name = .ok t)
    (hb : GoodBench p now b) (hg : StoreGood st) (hwf : StoreWF st) :
    StoreGood (modifyVal (ensureKey st b.id.group_name (Plot.new now))
      b.id.group_name (updatePlot t b.result.time b.id.params)) ∧
    StoreWF (modifyVal (ensureKey st b.id.group_name (Plot.new now))
      b.id.group_name (updatePlot t b.result.time b.id.params)) := by
  obtain ⟨⟨t0, ht0, htl, htu⟩, ⟨q, hq, hql, hqu⟩⟩ := hb
  have htt : t0 = t := by
    rw [ht0] at ht
    exact Except.ok.inj ht
  subst htt
  constructor
  · intro g2 pl2 hmem
    rcases mem_modifyVal _ _ _ _ _ hmem with ⟨hne, hmem2⟩ |
      ⟨heq, v0, hv0, hpl2⟩
    · rcases mem_ensureKey _ _ _ _ _ hmem2 with hmem3 | ⟨hkeq, _, _⟩
      · exact hg g2 pl2 hmem3
      · exact absurd hkeq hne
    · rcases mem_ensureKey _ _ _ _ _ hv0 with hmem3 | ⟨_, hv0d, _⟩
      · rw [hpl2, hq]
        exact PlotGood_update v0 _ t0 q (hg g2 v0 hmem3) (hwf.2 (g2, v0) hmem3)
      · rw [hpl2, hq, hv0d]
        exact PlotGood_new now _ t0 q htl htu hql hqu
  · constructor
    · rw [modifyVal_keys]
      exact ensureKey_keys_nodup _ _ _ hwf.1
    · intro gp hmem
      rcases mem_modifyVal _ _ _ gp.1 gp.2 hmem with ⟨hne, hmem2⟩ |
        ⟨heq, v0, hv0, hpl2⟩
      · rcases mem_ensureKey _ _ _ _ _ hmem2 with hmem3 | ⟨hkeq, _, _⟩
        · exact hwf.2 (gp.1, gp.2) hmem3
        · exact absurd hkeq hne
      · rcases mem_ensureKey _ _ _ _ _ hv0 with hmem3 | ⟨_, hv0d, _⟩
        · show (gp.2.lines.map Prod.fst).Nodup
          rw [hpl2]
          exact updatePlot_keys_nodup _ _ _ _ (hwf.2 (gp.1, v0) hmem3)
        · show (gp.2.lines.map Prod.fst).Nodup
          rw [hpl2, hv0d]
          exact updatePlot_keys_nodup _ _ _ _ (by simp [Plot.new])

theorem ingestLoop_good (p : RFCParse) (now : Int) :
    ∀ (bd : List BenchData) (st : Plots), (∀ b ∈ bd, GoodBench p now b) →
      StoreGood st → StoreWF st →
      StoreGood (ingestLoop p now st bd).1 ∧
        StoreWF (ingestLoop p now st bd).1 := by
  intro bd
  induction bd with
  | nil => exact fun st _ hg hwf => ⟨hg, hwf⟩
  | cons b rest ih =>
      intro st hok hg hwf
      obtain ⟨⟨t, ht, _, _⟩, _⟩ := hok b (by simp)
      simp only [ingestLoop, addBench_ok p now st b t ht]
      obtain ⟨hg1, hwf1⟩ := addBench_good p now st b t ht (hok b (by simp))
        hg hwf
      exact ih _ (fun b2 h2 => hok b2 (by simp [h2])) hg1 hwf1

/-- A successful, in-bounds `add_data` call preserves exact ranges and the
structural invariant. -/
theorem add_data_good (p : RFCParse) (now : Int) (st : Plots)
    (bd : List BenchData) (st1 : Plots)
    (hok : Plots.add_data st p now bd = .ok st1)
    (hb : ∀ b ∈ bd, GoodBench p now b) (hg : StoreGood st)
    (hwf : StoreWF st) : StoreGood st1 ∧ StoreWF st1 := by
  rcases hloop : ingestLoop p now st bd with ⟨st0, e0⟩
  unfold Plots.add_data at hok
  rw [hloop] at hok
  cases e0 with
  | some e =>
      have hcontra : (Except.error e : Except PlotError Plots) = .ok st1 := hok
      simp at hcontra
  | none =>
      have hsort : sortStore st0 = .ok st1 := hok
      obtain ⟨hg0, hwf0⟩ := ingestLoop_good p now bd st hb hg hwf
      rw [hloop] at hg0 hwf0
      exact sortStore_good st0 st1 hsort hg0 hwf0

/-! ### The record loop of `add_data` -/

theorem str_to_datetime_error (p : RFCParse) (i : List Char) (e : PlotError)
    (h : str_to_datetime p i = .error e) : e = .timestampParse := by
  unfold str_to_datetime at h
  cases hp : p (i.drop 8) <;> rw [hp] at h <;> simp at h
  exact h.symm

theorem ingestLoop_stop (p : RFCParse) (now : Int) (st : Plots)
    (b : BenchData) (rest : List BenchData) (e : PlotError)
    (he : str_to_datetime p b.id.bench_name = .error e) :
    ingestLoop p now st (b :: rest) = (st, some e) := by
  simp [ingestLoop, addBench_error p now st b e he]

/-- When every record of a batch parses, the loop succeeds and its effect
on every stored series is: append that batch's points for the series' key,
in batch order. -/
theorem ingestLoop_pointsIn (p : RFCParse) (now : Int) :
    ∀ (bd : List BenchData) (st : Plots),
      (∀ b ∈ bd, ∃ t, str_to_datetime p b.id.bench_name = .ok t) →
      (ingestLoop p now st bd).2 = none ∧
      ∀ g k, pointsIn (ingestLoop p now st bd).1 g k =
        pointsIn st g k ++ ptsFor p g k bd := by
  intro bd
  induction bd with
  | nil =>
      intro st _
      exact ⟨rfl, fun g k => by simp [ingestLoop, ptsFor]⟩
  | cons b rest ih =>
      intro st hok
      obtain ⟨t, ht⟩ := hok b (by simp)
      simp only [ingestLoop, addBench_ok p now st b t ht]
      obtain ⟨hnone, hpts⟩ := ih
        (modifyVal (ensureKey st b.id.group_name (Plot.new now))
          b.id.group_name (updatePlot t b.result.time b.id.params))
        (fun b2 h2 => hok b2 (by simp [h2]))
      refine ⟨hnone, ?_⟩
      intro g k
      rw [hpts g k, addBench_pointsIn now st b t g k]
      have hfor : ptsFor p g k (b :: rest) =
          (if g = b.id.group_name ∧ k = b.id.params
            then [⟨t, b.result.time⟩] else []) ++ ptsFor p g k rest := by
        by_cases hc : g = b.id.group_name ∧ k = b.id.params
        · have hc2 : b.id.group_name = g ∧ b.id.params = k :=
            ⟨hc.1.symm, hc.2.symm⟩
          rw [if_pos hc]
          simp only [ptsFor, List.filterMap_cons, if_pos hc2, ht]
          rfl
        · have hc2 : ¬ (b.id.group_name = g ∧ b.id.params = k) :=
            fun hh => hc ⟨hh.1.symm, hh.2.symm⟩
          rw [if_neg hc]
          simp only [ptsFor, List.filterMap_cons, if_neg hc2]
          simp
      rw [hfor]
      by_cases hc : g = b.id.group_name ∧ k = b.id.params
      · rw [if_pos hc, if_pos hc, List.append_assoc]
      · rw [if_neg hc, if_neg hc, List.nil_append]

theorem ingestLoop_append_ok (p : RFCParse) (now : Int) :
    ∀ (pre : List BenchData) (st : Plots),
      (∀ b ∈ pre, ∃ t, str_to_datetime p b.id.bench_name = .ok t) →
      ∀ rest, ingestLoop p now st (pre ++ rest) =
        ingestLoop p now (ingestLoop p now st pre).1 rest := by
  intro pre
  induction pre with
  | nil => intro st _ rest; rfl
  | cons a pre2 ih =>
      intro st hok rest
      obtain ⟨t, ht⟩ := hok a (by simp)
      simp only [List.cons_append, ingestLoop, addBench_ok p now st a t ht]
      exact ih _ (fun b2 h2 => hok b2 (by simp [h2])) rest

theorem ingestLoop_tail_irrelevant (p : RFCParse) (now : Int) :
    ∀ (pre : List BenchData) (st : Plots) (b : BenchData),
      str_to_datetime p b.id.bench_name = .error .timestampParse →
      ∀ rest rest2, ingestLoop p now st (pre ++ b :: rest) =
        ingestLoop p now st (pre ++ b :: rest2) := by
  intro pre
  induction pre with
  | nil =>
      intro st b he rest rest2
      rw [List.nil_append, List.nil_append, ingestLoop_stop p now st b rest _ he,
        ingestLoop_stop p now st b rest2 _ he]
  | cons a pre2 ih =>
      intro st b he rest rest2
      simp only [List.cons_append, ingestLoop]
      cases ha : addBench p now st a with
      | error e => rfl
      | ok st1 => exact ih st1 b he rest rest2

theorem ingestLoop_bad (p : RFCParse) (now : Int) :
    ∀ (bd : List BenchData) (st : Plots),
      (∃ b ∈ bd, str_to_datetime p b.id.bench_name = .error .timestampParse) →
      ∃ st1, ingestLoop p now st bd = (st1, some .timestampParse) := by
  intro bd
  induction bd with
  | nil => intro st h; simp at h
  | cons a rest ih =>
      intro st h
      cases ha : str_to_datetime p a.id.bench_name with
      | error e =>
          have he := str_to_datetime_error p a.id.bench_name e ha
          subst he
          exact ⟨st, ingestLoop_stop p now st a rest _ ha⟩
      | ok t =>
          obtain ⟨b, hb, hbe⟩ := h
          rcases List.mem_cons.mp hb with rfl | hb2
          · rw [ha] at hbe; simp at hbe
          · simp only [ingestLoop, addBench_ok p now st a t ha]
            exact ih _ ⟨b, hb2, hbe⟩

/-- C6: For every input string, the identity parser splits it on `/` and
fails (with the format error) unless exactly 3 segments result; on success
it returns segment 0 as `group_name`, segment 1 with every `_` replaced by
`:` as `bench_name`, and segment 2 as `params` — the substitution applied
only to segment 1, never to segments 0 or 2; in particular
`"GroupA/28db40f_2024-01-30T19_07_04-05_00/rc=100"` parses to
`("GroupA", "28db40f:2024-01-30T19:07:04-05:00", "rc=100")`. -/
theorem C6_identity_parsing (s : List Char) :
    (∀ g b pr, splitChar '/' s = [g, b, pr] →
      BenchId.deserialize s = .ok ⟨g, replaceUC b, pr⟩) ∧
    ((splitChar '/' s).length ≠ 3 →
      BenchId.deserialize s =
        .error ("Expected 3 bench ID elements".toList)) ∧
    BenchId.deserialize
        ("GroupA/28db40f_2024-01-30T19_07_04-05_00/rc=100".toList) =
      .ok ⟨"GroupA".toList, "28db40f:2024-01-30T19:07:04-05:00".toList,
        "rc=100".toList⟩ := by
  refine ⟨?_, ?_, ?_⟩
  · intro g b pr hsp
    simp [BenchId.deserialize, hsp]
  · intro h
    simp [BenchId.deserialize, h]
  · rfl

theorem C6_identity_parsing_witness :
    BenchId.deserialize ("a/b_c/d".toList) =
      .ok ⟨"a".toList, replaceUC ("b_c".toList), "d".toList⟩ :=
  (C6_identity_parsing ("a/b_c/d".toList)).1 "a".toList "b_c".toList "d".toList
    rfl

/-- C3 (amended): the x range is seeded on first construction of a plot
with min = the construction-time clock instant (`Utc::now()`, not the
latest representable instant) and max = the earliest representable
instant, and the y range with min = `f64::MAX`, max = `f64::MIN`;
consequently, after any sequence of successful ingest calls whose records
all carry timestamps between the earliest representable instant and the
clock instant and finite values of magnitude at most `f64::MAX`, every
plot's x and y ranges exactly equal the true minimum and maximum over all
points ever ingested into that plot, regardless of batching order. -/
theorem C3_ranges_amended (p : RFCParse) (now : Int) (st : Plots)
    (h : ReachableGood p now st) :
    (XAxisRange.default now = ⟨now, MIN_UTC⟩) ∧
    (YAxisRange.default = ⟨F64.MAX, F64.MIN⟩) ∧
    ∀ g pl, (g, pl) ∈ st →
      (pl.x_axis.min ∈ (plotPts pl).map Point.x ∧
        ∀ x ∈ (plotPts pl).map Point.x, pl.x_axis.min ≤ x) ∧
      (pl.x_axis.max ∈ (plotPts pl).map Point.x ∧
        ∀ x ∈ (plotPts pl).map Point.x, x ≤ pl.x_axis.max) ∧
      (∃ qmin, pl.y_axis.min = F64.fin qmin ∧
        F64.fin qmin ∈ (plotPts pl).map Point.y ∧
        ∀ q, F64.fin q ∈ (plotPts pl).map Point.y → qmin ≤ q) ∧
      (∃ qmax, pl.y_axis.max = F64.fin qmax ∧
        F64.fin qmax ∈ (plotPts pl).map Point.y ∧
        ∀ q, F64.fin q ∈ (plotPts pl).map Point.y → q ≤ qmax) := by
  refine ⟨rfl, rfl, ?_⟩
  have hsg : StoreGood st ∧ StoreWF st := by
    induction h with
    | nil =>
        exact ⟨fun g pl hmem => absurd hmem (by simp [Plots.new]),
          by simp [StoreWF, Plots.new]⟩
    | step st0 bd st1 _ hgb hok ih =>
        exact add_data_good p now st0 bd st1 hok hgb ih.1 ih.2
  intro g pl hmem
  obtain ⟨_, h1, h2, h3, h4⟩ := hsg.1 g pl hmem
  exact ⟨h1, h2, h3, h4⟩

theorem C3_ranges_amended_witness :
    ((⟨⟨1, 1⟩, ⟨F64.fin 2, F64.fin 2⟩,
        [("k".toList, [⟨1, F64.fin 2⟩])]⟩ : Plot).x_axis.min ∈
      (plotPts ⟨⟨1, 1⟩, ⟨F64.fin 2, F64.fin 2⟩,
        [("k".toList, [⟨1, F64.fin 2⟩])]⟩).map Point.x) :=
  ((C3_ranges_amended (fun _ => some 1) 5
    [("g".toList, ⟨⟨1, 1⟩, ⟨F64.fin 2, F64.fin 2⟩,
      [("k".toList, [⟨1, F64.fin 2⟩])]⟩)]
    (ReachableGood.step Plots.new
      [⟨⟨"g".toList, "AAAAAAAAx".toList, "k".toList⟩, ⟨F64.fin 2⟩⟩]
      [("g".toList, ⟨⟨1, 1⟩, ⟨F64.fin 2, F64.fin 2⟩,
        [("k".toList, [⟨1, F64.fin 2⟩])]⟩)]
      ReachableGood.nil
      (by
        intro b2 h2
        rw [List.mem_singleton] at h2
        subst h2
        exact ⟨⟨1, rfl, by decide, by decide⟩, ⟨2, rfl, by decide, by decide⟩⟩)
      (by decide))).2.2 "g".toList
    ⟨⟨1, 1⟩, ⟨F64.fin 2, F64.fin 2⟩, [("k".toList, [⟨1, F64.fin 2⟩])]⟩
    (by simp)).1.1

/-- C3 counterexample: the x range minimum is seeded with the clock
instant, not the latest representable instant, so a record whose commit
timestamp lies in the future of the clock leaves `x_range.min` at the
seed, which is not the minimum (nor any) timestamp of the ingested
points — the claim as stated is false on the code. -/
theorem C3_seed_counterexample :
    (XAxisRange.default 1700000000).min = 1700000000 ∧
    Plots.add_data [] (fun _ => some 32472144000) 1700000000
        [⟨⟨"g".toList, "AAAAAAAAt".toList, "k".toList⟩, ⟨F64.fin 5⟩⟩] =
      .ok [("g".toList, ⟨⟨1700000000, 32472144000⟩, ⟨F64.fin 5, F64.fin 5⟩,
        [("k".toList, [⟨32472144000, F64.fin 5⟩])]⟩)] ∧
    ((1700000000 : Int) ∉ ([(⟨32472144000, F64.fin 5⟩ : Point)]).map Point.x)
    := ⟨rfl, by decide, by decide⟩

/-- C4: After any successful `add_data` call, every series in every plot of
the store is sorted ascending by `(timestamp, value)` lexicographically,
regardless of the order of records in the batch and of any prior
sortedness (the final pass re-sorts every series of the whole store); and
when the sort phase meets an incomparable value, the whole ingest call is
a hard error. -/
theorem C4_series_sorted :
    (∀ (p : RFCParse) (now : Int) (st : Plots) (bd : List BenchData) st1,
      Plots.add_data st p now bd = .ok st1 →
      ∀ g pl, (g, pl) ∈ st1 → ∀ k l, (k, l) ∈ pl.lines →
        List.Pairwise ptLe l) ∧
    (∀ (p : RFCParse) (now : Int) (st : Plots) (bd : List BenchData) st1 e,
      ingestLoop p now st bd = (st1, none) → sortStore st1 = .error e →
      e = .incomparable ∧
        Plots.add_data st p now bd = .error .incomparable) := by
  constructor
  · intro p now st bd st1 hok g pl hmem k l hline
    rcases hloop : ingestLoop p now st bd with ⟨st0, e0⟩
    unfold Plots.add_data at hok
    rw [hloop] at hok
    cases e0 with
    | some e =>
        have hcontra : (Except.error e : Except PlotError Plots) = .ok st1 := hok
        simp at hcontra
    | none =>
        have hsort : sortStore st0 = .ok st1 := hok
        obtain ⟨a, hmem0, hrel⟩ :=
          forall2_mem_right (sortStore_char st0 st1 hsort) (g, pl) hmem
        obtain ⟨b, hmem1, hrel2⟩ :=
          forall2_mem_right (sortLines_char a.2.lines pl.lines hrel.2.2.2)
            (k, l) hline
        exact sortPoints_sorted b.2 l hrel2.2
  · intro p now st bd st1 e hloop herr
    have he := sortStore_error st1 e herr
    subst he
    refine ⟨rfl, ?_⟩
    simp [Plots.add_data, hloop, herr]

theorem C4_series_sorted_witness :
    List.Pairwise ptLe [(⟨0, F64.fin 1⟩ : Point)] :=
  C4_series_sorted.1 (fun _ => some 0) 0 []
    [⟨⟨"g".toList, "n".toList, "k".toList⟩, ⟨F64.fin 1⟩⟩]
    [("g".toList, ⟨⟨0, 0⟩, ⟨F64.fin 1, F64.fin 1⟩,
      [("k".toList, [⟨0, F64.fin 1⟩])]⟩)]
    (by decide) "g".toList
    ⟨⟨0, 0⟩, ⟨F64.fin 1, F64.fin 1⟩, [("k".toList, [⟨0, F64.fin 1⟩])]⟩
    (by simp) "k".toList [⟨0, F64.fin 1⟩] (by simp)

/-! ### Aggregator claims: error handling and point derivation -/

/-- C8: For every record, its point is derived by discarding the first 8
characters of `bench_name` (the opaque short-sha prefix together with the
separator) and parsing the remainder as an RFC3339 timestamp, which
becomes the point's x value while the record's measured time becomes y;
when the remaining timestamp text does not parse, the derivation fails
with the timestamp parse error. -/
theorem C8_point_derivation (p : RFCParse) (input : List Char) :
    (∀ t, p (input.drop 8) = some t → str_to_datetime p input = .ok t) ∧
    (p (input.drop 8) = none →
      str_to_datetime p input = .error .timestampParse) ∧
    (∀ (now : Int) (st : Plots) (b : BenchData) (t : Int),
      str_to_datetime p b.id.bench_name = .ok t →
      ∃ st1, addBench p now st b = .ok st1 ∧
        pointsIn st1 b.id.group_name b.id.params =
          pointsIn st b.id.group_name b.id.params ++ [⟨t, b.result.time⟩]) := by
  refine ⟨?_, ?_, ?_⟩
  · intro t ht
    simp [str_to_datetime, ht]
  · intro ht
    simp [str_to_datetime, ht]
  · intro now st b t ht
    refine ⟨_, addBench_ok p now st b t ht, ?_⟩
    rw [addBench_pointsIn now st b t]
    exact if_pos ⟨rfl, rfl⟩

theorem C8_point_derivation_witness :
    str_to_datetime (fun _ => some 42)
      ("28db40f-2024-01-30T19:07:04-05:00".toList) = .ok 42 :=
  (C8_point_derivation (fun _ => some 42)
    ("28db40f-2024-01-30T19:07:04-05:00".toList)).1 42 rfl

/-- C9: An ingest call containing at least one record whose `bench_name`
timestamp text is unparseable aborts in its entirety with the timestamp
parse error, and no record after the first failing one is ever processed
(the outcome does not depend on them). -/
theorem C9_timestamp_abort (p : RFCParse) (now : Int) (st : Plots)
    (bd : List BenchData)
    (hbad : ∃ b ∈ bd,
      str_to_datetime p b.id.bench_name = .error .timestampParse) :
    Plots.add_data st p now bd = .error .timestampParse ∧
    (∀ pre b rest rest2, bd = pre ++ b :: rest →
      str_to_datetime p b.id.bench_name = .error .timestampParse →
      ingestLoop p now st bd = ingestLoop p now st (pre ++ b :: rest2)) := by
  constructor
  · obtain ⟨st1, hloop⟩ := ingestLoop_bad p now bd st hbad
    simp [Plots.add_data, hloop]
  · intro pre b rest rest2 hbd he
    subst hbd
    exact ingestLoop_tail_irrelevant p now pre st b he rest rest2

theorem C9_timestamp_abort_witness :
    Plots.add_data [] (fun _ => none) 0
      [⟨⟨[], "AAAAAAAAbad".toList, []⟩, ⟨F64.fin 0⟩⟩] =
      .error .timestampParse :=
  (C9_timestamp_abort (fun _ => none) 0 []
    [⟨⟨[], "AAAAAAAAbad".toList, []⟩, ⟨F64.fin 0⟩⟩]
    ⟨⟨⟨[], "AAAAAAAAbad".toList, []⟩, ⟨F64.fin 0⟩⟩, by simp, rfl⟩).1

/-- C10: Ingest is not atomic on error: when the first record with an
unparseable timestamp follows the records of `pre` (which all parse), the
loop aborts with the partially mutated store — the points derived from
`pre` are already appended to their series in record order, every
pre-existing point remains, nothing is rolled back, and the final re-sort
never runs (the whole call returns the timestamp parse error). -/
theorem C10_partial_ingest_on_abort (p : RFCParse) (now : Int) (st : Plots)
    (pre : List BenchData) (b : BenchData) (rest : List BenchData)
    (hpre : ∀ b2 ∈ pre, ∃ t, str_to_datetime p b2.id.bench_name = .ok t)
    (hb : str_to_datetime p b.id.bench_name = .error .timestampParse) :
    ingestLoop p now st (pre ++ b :: rest) =
      ((ingestLoop p now st pre).1, some .timestampParse) ∧
    (∀ g k, pointsIn (ingestLoop p now st pre).1 g k =
      pointsIn st g k ++ ptsFor p g k pre) ∧
    Plots.add_data st p now (pre ++ b :: rest) = .error .timestampParse := by
  have h1 : ingestLoop p now st (pre ++ b :: rest) =
      ((ingestLoop p now st pre).1, some .timestampParse) := by
    rw [ingestLoop_append_ok p now pre st hpre (b :: rest),
      ingestLoop_stop p now _ b rest _ hb]
  refine ⟨h1, (ingestLoop_pointsIn p now pre st hpre).2, ?_⟩
  simp [Plots.add_data, h1]

theorem C10_partial_ingest_on_abort_witness :
    Plots.add_data [] (fun l => if l = "ok".toList then some 1 else none) 0
      [⟨⟨"g".toList, "AAAAAAAAok".toList, "k".toList⟩, ⟨F64.fin 2⟩⟩,
        ⟨⟨"g".toList, "AAAAAAAAzz".toList, "k".toList⟩, ⟨F64.fin 3⟩⟩] =
      .error .timestampParse :=
  (C10_partial_ingest_on_abort
    (fun l => if l = "ok".toList then some 1 else none) 0 []
    [⟨⟨"g".toList, "AAAAAAAAok".toList, "k".toList⟩, ⟨F64.fin 2⟩⟩]
    ⟨⟨"g".toList, "AAAAAAAAzz".toList, "k".toList⟩, ⟨F64.fin 3⟩⟩ []
    (by
      intro b2 h2
      rw [List.mem_singleton] at h2
      subst h2
      exact ⟨1, rfl⟩)
    rfl).2.2

/-! ### Congruence of the aggregator under per-series permutations -/

theorem findVal?_rel {β γ : Type} {R : β → γ → Prop} :
    ∀ {l1 : List (GKey × β)} {l2 : List (GKey × γ)},
      List.Forall₂ (fun u v => u.1 = v.1 ∧ R u.2 v.2) l1 l2 → ∀ g,
      (findVal? l1 g = none ∧ findVal? l2 g = none) ∨
      (∃ x y, findVal? l1 g = some x ∧ findVal? l2 g = some y ∧ R x y) := by
  intro l1 l2 h
  induction h with
  | nil => exact fun g => Or.inl ⟨rfl, rfl⟩
  | @cons u v l1' l2' hr hrest ih =>
      intro g
      by_cases hk : u.1 = g
      · right
        refine ⟨u.2, v.2, ?_, ?_, hr.2⟩
        · show (if u.1 = g then some u.2 else findVal? l1' g) = some u.2
          rw [if_pos hk]
        · show (if v.1 = g then some v.2 else findVal? l2' g) = some v.2
          rw [if_pos (hr.1.symm.trans hk)]
      · have hk2 : ¬ v.1 = g := fun hh => hk (hr.1.trans hh)
        rcases ih g with ⟨h1, h2⟩ | ⟨x, y, h1, h2, hxy⟩
        · left
          constructor
          · show (if u.1 = g then some u.2 else findVal? l1' g) = none
            rw [if_neg hk]
            exact h1
          · show (if v.1 = g then some v.2 else findVal? l2' g) = none
            rw [if_neg hk2]
            exact h2
        · right
          refine ⟨x, y, ?_, ?_, hxy⟩
          · show (if u.1 = g then some u.2 else findVal? l1' g) = some x
            rw [if_neg hk]
            exact h1
          · show (if v.1 = g then some v.2 else findVal? l2' g) = some y
            rw [if_neg hk2]
            exact h2

theorem PlotEquiv_refl (pl : Plot) : PlotEquiv pl pl :=
  ⟨rfl, rfl, List.forall₂_same.mpr (fun _ _ => ⟨rfl, List.Perm.refl _⟩)⟩

theorem ensureKey_congr {β γ : Type} {R : β → γ → Prop}
    {l1 : List (GKey × β)} {l2 : List (GKey × γ)}
    (h : List.Forall₂ (fun u v => u.1 = v.1 ∧ R u.2 v.2) l1 l2) (g : GKey)
    {d1 : β} {d2 : γ} (hd : R d1 d2) :
    List.Forall₂ (fun u v => u.1 = v.1 ∧ R u.2 v.2)
      (ensureKey l1 g d1) (ensureKey l2 g d2) := by
  rcases findVal?_rel h g with ⟨h1, h2⟩ | ⟨x, y, h1, h2, _⟩
  · unfold ensureKey
    rw [h1, h2]
    simp only [Option.isSome_none, Bool.false_eq_true, if_false]
    exact List.rel_append h (List.Forall₂.cons ⟨rfl, hd⟩ List.Forall₂.nil)
  · unfold ensureKey
    rw [h1, h2]
    simp only [Option.isSome_some, if_true]
    exact h

theorem modifyVal_congr {β γ : Type} {R : β → γ → Prop}
    {l1 : List (GKey × β)} {l2 : List (GKey × γ)}
    (h : List.Forall₂ (fun u v => u.1 = v.1 ∧ R u.2 v.2) l1 l2) (g : GKey)
    {f1 : β → β} {f2 : γ → γ} (hf : ∀ x y, R x y → R (f1 x) (f2 y)) :
    List.Forall₂ (fun u v => u.1 = v.1 ∧ R u.2 v.2)
      (modifyVal l1 g f1) (modifyVal l2 g f2) := by
  induction h with
  | nil => exact List.Forall₂.nil
  | @cons u v l1' l2' hr hrest ih =>
      simp only [modifyVal, List.map_cons]
      refine List.Forall₂.cons ?_ ih
      by_cases hk : u.1 = g
      · rw [if_pos hk, if_pos (hr.1.symm.trans hk)]
        exact ⟨hr.1, hf _ _ hr.2⟩
      · rw [if_neg hk, if_neg (fun hh => hk (hr.1.trans hh))]
        exact hr

theorem updatePlot_congr (cd : Int) (y : F64) (bp : GKey) {x1 x2 : Plot}
    (h : PlotEquiv x1 x2) :
    PlotEquiv (updatePlot cd y bp x1) (updatePlot cd y bp x2) := by
  obtain ⟨hx, hy, hl⟩ := h
  refine ⟨?_, ?_, ?_⟩
  · rw [updatePlot_x_axis, updatePlot_x_axis, hx]
  · rw [updatePlot_y_axis, updatePlot_y_axis, hy]
  · show List.Forall₂ _ (modifyVal (ensureKey x1.lines bp []) bp
      (fun l => l ++ [⟨cd, y⟩])) (modifyVal (ensureKey x2.lines bp []) bp
      (fun l => l ++ [⟨cd, y⟩]))
    exact modifyVal_congr (ensureKey_congr hl bp (List.Perm.refl [])) bp
      (fun a b hab => hab.append_right [⟨cd, y⟩])

theorem ingestLoop_congr (p : RFCParse) (now : Int) :
    ∀ (bd : List BenchData) {u v : Plots}, StoreEquiv u v →
      (ingestLoop p now u bd).2 = (ingestLoop p now v bd).2 ∧
      StoreEquiv (ingestLoop p now u bd).1 (ingestLoop p now v bd).1 := by
  intro bd
  induction bd with
  | nil => exact fun h => ⟨rfl, h⟩
  | cons b rest ih =>
      intro u v h
      cases ht : str_to_datetime p b.id.bench_name with
      | error e =>
          rw [ingestLoop_stop p now u b rest e ht,
            ingestLoop_stop p now v b rest e ht]
          exact ⟨rfl, h⟩
      | ok t =>
          simp only [ingestLoop, addBench_ok p now u b t ht,
            addBench_ok p now v b t ht]
          exact ih (modifyVal_congr (ensureKey_congr h _ (PlotEquiv_refl _)) _
            (fun _ _ hxy => updatePlot_congr t b.result.time b.id.params hxy))

theorem sortLines_output_equiv (ls ls1 : List (GKey × List Point))
    (h : sortLines ls = .ok ls1) :
    List.Forall₂ (fun u v => u.1 = v.1 ∧ u.2.Perm v.2) ls1 ls := by
  have hchar := sortLines_char ls ls1 h
  clear h
  induction hchar with
  | nil => exact List.Forall₂.nil
  | cons hr _ ih =>
      exact List.Forall₂.cons ⟨hr.1.symm, sortPoints_perm _ _ hr.2⟩ ih

theorem sortStore_output_equiv (st st1 : Plots) (h : sortStore st = .ok st1) :
    StoreEquiv st1 st := by
  have hchar := sortStore_char st st1 h
  clear h
  induction hchar with
  | nil => exact List.Forall₂.nil
  | cons hr _ ih =>
      exact List.Forall₂.cons ⟨hr.1.symm, hr.2.1.symm, hr.2.2.1.symm,
        sortLines_output_equiv _ _ hr.2.2.2⟩ ih

theorem sortLines_eq_of_equiv :
    ∀ {ls1 ls2 : List (GKey × List Point)},
      List.Forall₂ (fun u v => u.1 = v.1 ∧ u.2.Perm v.2) ls1 ls2 →
      (∀ kv ∈ ls2, ∀ z ∈ kv.2, ∃ q, z.y = F64.fin q) →
      sortLines ls1 = sortLines ls2 := by
  intro ls1 ls2 h
  induction h with
  | nil => exact fun _ => rfl
  | @cons u v l1' l2' hr hrest ih =>
      intro hfin
      have hfin_u : ∀ z ∈ u.2, ∃ q, z.y = F64.fin q := fun z hz =>
        hfin v (by simp) z (hr.2.mem_iff.mp hz)
      have hsp : sortPoints u.2 = sortPoints v.2 :=
        sortPoints_congr u.2 v.2 hr.2 hfin_u
      simp only [sortLines]
      rw [hsp, hr.1, ih (fun kv hkv => hfin kv (by simp [hkv]))]

theorem sortStore_eq_of_equiv :
    ∀ {u v : Plots}, StoreEquiv u v → StoreFin v → sortStore u = sortStore v := by
  intro u v h
  induction h with
  | nil => exact fun _ => rfl
  | @cons a b l1' l2' hr hrest ih =>
      intro hfin
      obtain ⟨hx, hy, hl⟩ := hr.2
      have hsl : sortLines a.2.lines = sortLines b.2.lines :=
        sortLines_eq_of_equiv hl (fun kv hkv z hz =>
          hfin b.1 b.2 (List.mem_cons_self b l2') kv.1 kv.2 hkv z hz)
      simp only [sortStore]
      rw [hsl, hr.1, hx, hy,
        ih (fun g pl hmem k l hkl z hz =>
          hfin g pl (List.mem_cons_of_mem b hmem) k l hkl z hz)]

/-! ### Finiteness of stored values through the pipeline -/

theorem addBench_fin (now : Int) (st : Plots) (b : BenchData) (t : Int)
    (hfin : StoreFin st) (hq : ∃ q, b.result.time = F64.fin q) :
    StoreFin (modifyVal (ensureKey st b.id.group_name (Plot.new now))
      b.id.group_name (updatePlot t b.result.time b.id.params)) := by
  intro g pl hmem k l hkl z hz
  rcases mem_modifyVal _ _ _ _ _ hmem with ⟨hne, hmem2⟩ | ⟨heq, v0, hv0, hpl⟩
  · rcases mem_ensureKey _ _ _ _ _ hmem2 with hmem3 | ⟨hkeq, _, _⟩
    · exact hfin g pl hmem3 k l hkl z hz
    · exact absurd hkeq hne
  · subst hpl
    have hkl2 : (k, l) ∈ modifyVal (ensureKey v0.lines b.id.params [])
        b.id.params (fun l0 => l0 ++ [⟨t, b.result.time⟩]) := hkl
    rcases mem_modifyVal _ _ _ _ _ hkl2 with ⟨hne2, hmem4⟩ |
      ⟨heq2, l0, hl0, hleq⟩
    · rcases mem_ensureKey _ _ _ _ _ hmem4 with hmem5 | ⟨_, hld, _⟩
      · rcases mem_ensureKey _ _ _ _ _ hv0 with hv0st | ⟨_, hv0new, _⟩
        · exact hfin g v0 hv0st k l hmem5 z hz
        · rw [hv0new] at hmem5
          simp [Plot.new] at hmem5
      · rw [hld] at hz
        simp at hz
    · rw [hleq] at hz
      rcases List.mem_append.mp hz with hz2 | hz2
      · rcases mem_ensureKey _ _ _ _ _ hl0 with hmem5 | ⟨_, hld, _⟩
        · rcases mem_ensureKey _ _ _ _ _ hv0 with hv0st | ⟨_, hv0new, _⟩
          · exact hfin g v0 hv0st k l0 hmem5 z hz2
          · rw [hv0new] at hmem5
            simp [Plot.new] at hmem5
        · rw [hld] at hz2
          simp at hz2
      · simp only [List.mem_singleton] at hz2
        rw [hz2]
        exact hq

theorem ingestLoop_fin (p : RFCParse) (now : Int) :
    ∀ (bd : List BenchData) (st : Plots), StoreFin st →
      (∀ b ∈ bd, ∃ q, b.result.time = F64.fin q) →
      StoreFin (ingestLoop p now st bd).1 := by
  intro bd
  induction bd with
  | nil => exact fun st h _ => h
  | cons b rest ih =>
      intro st hfin hq
      cases ht : str_to_datetime p b.id.bench_name with
      | error e =>
          rw [ingestLoop_stop p now st b rest e ht]
          exact hfin
      | ok t =>
          simp only [ingestLoop, addBench_ok p now st b t ht]
          exact ih _ (addBench_fin now st b t hfin (hq b (by simp)))
            (fun b2 h2 => hq b2 (by simp [h2]))

theorem sortStore_pointsIn (st st1 : Plots) (h : sortStore st = .ok st1)
    (g k : GKey) : (pointsIn st1 g k).Perm (pointsIn st g k) := by
  have hst := sortStore_output_equiv st st1 h
  rcases findVal?_rel hst g with ⟨h1, h2⟩ | ⟨x, y, h1, h2, hxy⟩
  · simp [pointsIn, h1, h2]
  · simp only [pointsIn, h1, h2]
    obtain ⟨_, _, hl⟩ := hxy
    rcases findVal?_rel hl k with ⟨g1, g2⟩ | ⟨lx, ly, g1, g2, hperm⟩
    · simp [g1, g2]
    · simp only [g1, g2, Option.getD_some]
      exact hperm

/-- A successful `add_data` call appends (up to the re-sort) exactly the
batch's points to each series. -/
theorem add_data_pointsIn_perm (p : RFCParse) (now : Int) (st : Plots)
    (bd : List BenchData) (st1 : Plots)
    (hok : ∀ b ∈ bd, ∃ t, str_to_datetime p b.id.bench_name = .ok t)
    (h : Plots.add_data st p now bd = .ok st1) (g k : GKey) :
    (pointsIn st1 g k).Perm (pointsIn st g k ++ ptsFor p g k bd) := by
  rcases hloop : ingestLoop p now st bd with ⟨st0, e0⟩
  unfold Plots.add_data at h
  rw [hloop] at h
  cases e0 with
  | some e =>
      have hcontra : (Except.error e : Except PlotError Plots) = .ok st1 := h
      simp at hcontra
  | none =>
      have hsort : sortStore st0 = .ok st1 := h
      have hpts := (ingestLoop_pointsIn p now bd st hok).2 g k
      rw [hloop] at hpts
      exact (sortStore_pointsIn st0 st1 hsort g k).trans (by rw [hpts])

/-- C5: Ingestion is associative across batching — for every store whose
values are finite and all record lists `a`, `b`, `c` whose records parse
and carry finite values, ingesting `a ++ b` and then `c` yields the very
same final store (hence the same series contents) as ingesting
`a ++ b ++ c` in one call; but ingestion is not idempotent — ingesting the
same record twice appends two copies of its point to the corresponding
series. -/
theorem C5_batching_associativity (p : RFCParse) (now : Int) (st : Plots)
    (a b c : List BenchData)
    (hok : ∀ r ∈ a ++ b ++ c, ∃ t, str_to_datetime p r.id.bench_name = .ok t)
    (hfinr : ∀ r ∈ a ++ b ++ c, ∃ q, r.result.time = F64.fin q)
    (hfinst : StoreFin st) :
    (∃ st1 st2, Plots.add_data st p now (a ++ b) = .ok st1 ∧
      Plots.add_data st1 p now c = .ok st2 ∧
      Plots.add_data st p now (a ++ b ++ c) = .ok st2) ∧
    (∀ r t st1 st2, str_to_datetime p r.id.bench_name = .ok t →
      Plots.add_data st p now [r] = .ok st1 →
      Plots.add_data st1 p now [r] = .ok st2 →
      seriesCount st2 r.id.group_name r.id.params ⟨t, r.result.time⟩ =
        seriesCount st r.id.group_name r.id.params ⟨t, r.result.time⟩ + 2) := by
  constructor
  · have hok_ab : ∀ r ∈ a ++ b, ∃ t, str_to_datetime p r.id.bench_name = .ok t :=
      fun r hr => hok r (List.mem_append.mpr (Or.inl hr))
    have hok_c : ∀ r ∈ c, ∃ t, str_to_datetime p r.id.bench_name = .ok t :=
      fun r hr => hok r (List.mem_append.mpr (Or.inr hr))
    have hfin_ab : ∀ r ∈ a ++ b, ∃ q, r.result.time = F64.fin q :=
      fun r hr => hfinr r (List.mem_append.mpr (Or.inl hr))
    rcases hloopAB : ingestLoop p now st (a ++ b) with ⟨A, eAB⟩
    have hABnone : eAB = none := by
      have h0 := (ingestLoop_pointsIn p now (a ++ b) st hok_ab).1
      rw [hloopAB] at h0
      exact h0
    subst hABnone
    have hfinA : StoreFin A := by
      have h0 := ingestLoop_fin p now (a ++ b) st hfinst hfin_ab
      rw [hloopAB] at h0
      exact h0
    obtain ⟨st1, hsortA⟩ := sortStore_ok A hfinA
    have hadd1 : Plots.add_data st p now (a ++ b) = .ok st1 := by
      unfold Plots.add_data
      rw [hloopAB]
      exact hsortA
    have hequiv1 : StoreEquiv st1 A := sortStore_output_equiv A st1 hsortA
    rcases hloopC1 : ingestLoop p now st1 c with ⟨B1, eC1⟩
    rcases hloopCA : ingestLoop p now A c with ⟨B, eC⟩
    have hCnone : eC = none := by
      have h0 := (ingestLoop_pointsIn p now c A hok_c).1
      rw [hloopCA] at h0
      exact h0
    subst hCnone
    have hcongr := ingestLoop_congr p now c hequiv1
    rw [hloopC1, hloopCA] at hcongr
    have hC1none : eC1 = none := hcongr.1
    subst hC1none
    have hequivB : StoreEquiv B1 B := hcongr.2
    have hBfull : ingestLoop p now st (a ++ b ++ c) = (B, none) := by
      rw [ingestLoop_append_ok p now (a ++ b) st hok_ab c, hloopAB]
      exact hloopCA
    have hfinB : StoreFin B := by
      have h0 := ingestLoop_fin p now (a ++ b ++ c) st hfinst hfinr
      rw [hBfull] at h0
      exact h0
    obtain ⟨st2, hsortB⟩ := sortStore_ok B hfinB
    have hadd3 : Plots.add_data st p now (a ++ b ++ c) = .ok st2 := by
      unfold Plots.add_data
      rw [hBfull]
      exact hsortB
    have hadd2 : Plots.add_data st1 p now c = .ok st2 := by
      unfold Plots.add_data
      rw [hloopC1]
      exact (sortStore_eq_of_equiv hequivB hfinB).trans hsortB
    exact ⟨st1, st2, hadd1, hadd2, hadd3⟩
  · intro r t st1 st2 ht hadd1 hadd2
    have hokr : ∀ b2 ∈ [r], ∃ t2, str_to_datetime p b2.id.bench_name = .ok t2 := by
      intro b2 h2
      rw [List.mem_singleton] at h2
      subst h2
      exact ⟨t, ht⟩
    have hfor : ptsFor p r.id.group_name r.id.params [r] =
        [⟨t, r.result.time⟩] := by
      simp [ptsFor, ht]
    have h1 := add_data_pointsIn_perm p now st [r] st1 hokr hadd1
      r.id.group_name r.id.params
    have h2 := add_data_pointsIn_perm p now st1 [r] st2 hokr hadd2
      r.id.group_name r.id.params
    rw [hfor] at h1 h2
    unfold seriesCount
    rw [List.Perm.count_eq h2, List.count_append, List.Perm.count_eq h1,
      List.count_append]
    simp

theorem C5_batching_associativity_witness :
    ∃ st1 st2,
      Plots.add_data [] (fun _ => some 0) 0
          ([⟨⟨"g".toList, "n".toList, "k".toList⟩, ⟨F64.fin 1⟩⟩] ++ []) =
        .ok st1 ∧
      Plots.add_data st1 (fun _ => some 0) 0
          [⟨⟨"g".toList, "n".toList, "k".toList⟩, ⟨F64.fin 2⟩⟩] = .ok st2 ∧
      Plots.add_data [] (fun _ => some 0) 0
          ([⟨⟨"g".toList, "n".toList, "k".toList⟩, ⟨F64.fin 1⟩⟩] ++ [] ++
            [⟨⟨"g".toList, "n".toList, "k".toList⟩, ⟨F64.fin 2⟩⟩]) =
        .ok st2 :=
  (C5_batching_associativity (fun _ => some 0) 0 []
    [⟨⟨"g".toList, "n".toList, "k".toList⟩, ⟨F64.fin 1⟩⟩] []
    [⟨⟨"g".toList, "n".toList, "k".toList⟩, ⟨F64.fin 2⟩⟩]
    (fun _ _ => ⟨0, rfl⟩)
    (by
      intro r hr
      simp at hr
      rcases hr with rfl | rfl
      · exact ⟨1, rfl⟩
      · exact ⟨2, rfl⟩)
    (fun g pl hmem => absurd hmem (by simp))).1

end CIW
